import Mathlib

/-!
Verification development for the micromouse maze solver (files
`Direction.py`, `Maze.py`, `Mouse.py`; `API.py` and `Main.py` are the
external protocol adapter and entry point).

The Python classes are shallowly embedded as follows.

* `Direction` is the four-valued enum; its `value` is the Python `int`
  member value, and the rotation helpers reproduce the `(value ± k) % 4`
  arithmetic with `Int.emod`, which agrees with Python `%` for the
  positive modulus 4.
* A `Maze` is the grid state: width, height, and per-position wall,
  distance and confirmation data.  Python stores a row-major list of
  mutable `MazeCell` objects; the embedding stores the same data as
  functions from positions, and `Maze.get_cell` materialises the
  `MazeCell` value visible at a position.  Positions are `Int × Int`
  (Python ints), and every state access of the source is guarded by the
  same bounds checks (`Maze.contains`) the source performs.
* Calls to the external simulator (`API.setWall`, `API.setText`,
  `API.log`, colours, …) only affect the external visualiser and are
  dropped from the embedding; wall sensor queries (`API.wallFront`
  and friends) are modelled by an oracle passed to the `Mouse`
  operations.
-/

/-- Position in the grid: the Python `(x, y)` tuple of ints. -/
abbrev Pos : Type := Int × Int

/-- Cardinal direction enum from `Direction.py` (NORTH=0, EAST=1, SOUTH=2, WEST=3). -/
inductive Direction : Type where
  | NORTH : Direction
  | EAST : Direction
  | SOUTH : Direction
  | WEST : Direction
deriving DecidableEq, Repr

/-- The Python enum member value. -/
def Direction.value : Direction → Int
  | .NORTH => 0
  | .EAST => 1
  | .SOUTH => 2
  | .WEST => 3

/-- Inverse of `Direction.value` on `{0,1,2,3}`; models the Python
`Direction(i)` enum lookup applied to results of `% 4`. -/
def Direction.ofValue (i : Int) : Direction :=
  if i = 0 then .NORTH else if i = 1 then .EAST else if i = 2 then .SOUTH else .WEST

/-- Rotation by minus 90 degrees: `Direction((self.value - 1) % 4)`. -/
def Direction.minus_90 (d : Direction) : Direction :=
  Direction.ofValue ((d.value - 1).emod 4)

/-- Rotation by plus 90 degrees: `Direction((self.value + 1) % 4)`. -/
def Direction.plus_90 (d : Direction) : Direction :=
  Direction.ofValue ((d.value + 1).emod 4)

/-- Rotation by 180 degrees: `Direction((self.value - 2) % 4)`. -/
def Direction.minus_180 (d : Direction) : Direction :=
  Direction.ofValue ((d.value - 2).emod 4)

/-- `Direction.add_to_position`: unit displacement of a position in this direction. -/
def Direction.add_to_position (d : Direction) (p : Pos) : Pos :=
  match d with
  | .NORTH => (p.1, p.2 + 1)
  | .EAST => (p.1 + 1, p.2)
  | .SOUTH => (p.1, p.2 - 1)
  | .WEST => (p.1 - 1, p.2)

/-- The static method `Direction.get_position_from_direction`. -/
def Direction.get_position_from_direction (p : Pos) (d : Direction) : Pos :=
  if d = .NORTH then (p.1, p.2 + 1)
  else if d = .EAST then (p.1 + 1, p.2)
  else if d = .SOUTH then (p.1, p.2 - 1)
  else (p.1 - 1, p.2)

/-- Iteration order of `for direction in Direction:` (enum definition order). -/
def allDirections : List Direction := [.NORTH, .EAST, .SOUTH, .WEST]

/-- Wall flags of one cell: the `MazeCell.walls` dict, which has exactly the
four direction values as keys. -/
structure Walls : Type where
  north : Bool
  east : Bool
  south : Bool
  west : Bool
deriving DecidableEq, Repr

/-- Dictionary lookup `walls[direction.value]`. -/
def Walls.get (w : Walls) : Direction → Bool
  | .NORTH => w.north
  | .EAST => w.east
  | .SOUTH => w.south
  | .WEST => w.west

/-- Dictionary write `walls[direction.value] = b`. -/
def Walls.set (w : Walls) (d : Direction) (b : Bool) : Walls :=
  match d with
  | .NORTH => { w with north := b }
  | .EAST => { w with east := b }
  | .SOUTH => { w with south := b }
  | .WEST => { w with west := b }

/-- The `MazeCell` value observable at one grid position: `position`,
`walls`, both distance fields and the `confirmed_distance` flag. -/
structure MazeCell : Type where
  position : Pos
  walls : Walls
  distance_to_goal : Option Nat
  distance_to_start : Option Nat
  confirmed_distance : Bool
deriving DecidableEq, Repr

/-- The grid state of `Maze.__init__`: Python keeps a row-major list of
mutable cells; the embedding keeps each per-cell field as a function of the
position.  Out-of-bounds positions carry junk values that no modelled
operation reads, since every source access is guarded by `contains`. -/
structure Maze : Type where
  width : Int
  height : Int
  walls : Pos → Walls
  distance_to_goal : Pos → Option Nat
  distance_to_start : Pos → Option Nat
  confirmed_distance : Pos → Bool

/-- Bounds check `Maze.contains`. -/
def Maze.contains (m : Maze) (p : Pos) : Bool :=
  decide (0 ≤ p.1) && decide (p.1 < m.width) && decide (0 ≤ p.2) && decide (p.2 < m.height)

/-- The cell value at a position (`Maze.get_cell` after its bounds check; the
`IndexError` branch is modelled at each call site that can reach it). -/
def Maze.get_cell (m : Maze) (p : Pos) : MazeCell :=
  { position := p
    walls := m.walls p
    distance_to_goal := m.distance_to_goal p
    distance_to_start := m.distance_to_start p
    confirmed_distance := m.confirmed_distance p }

/-- Maze constructor: all distances unknown, nothing confirmed, and the four
boundary walls pre-set (the `__init__` loop calls `cell.set_wall` on every
perimeter cell; this is its closed form per position). -/
def Maze.init (w h : Int) : Maze :=
  { width := w
    height := h
    walls := fun p =>
      { north := decide (p.2 = h - 1)
        east := decide (p.1 = w - 1)
        south := decide (p.2 = 0)
        west := decide (p.1 = 0) }
    distance_to_goal := fun _ => none
    distance_to_start := fun _ => none
    confirmed_distance := fun _ => false }

/-- `MazeCell.set_wall` on the cell stored at position `p` (the `API.setWall`
annotation only updates the external visualiser and is dropped). -/
def Maze.cell_set_wall (m : Maze) (p : Pos) (d : Direction) : Maze :=
  { m with walls := fun q => if q = p then (m.walls p).set d true else m.walls q }

/-- `Maze.set_wall`: writes the wall on the given cell, then the opposite
wall on the neighbouring cell across it; the `try/except IndexError` around
the neighbour lookup is modelled by the `contains` guard. -/
def Maze.set_wall (m : Maze) (p : Pos) (d : Direction) : Maze :=
  let m1 := m.cell_set_wall p d
  let neighbor := d.add_to_position p
  if m.contains neighbor then m1.cell_set_wall neighbor d.minus_180 else m1

/-- `MazeCell.get_distance(start)`: selects one of the two distance fields. -/
def Maze.get_distance (m : Maze) (p : Pos) (start : Bool) : Option Nat :=
  if start then m.distance_to_start p else m.distance_to_goal p

/-- `MazeCell.set_distance(distance, start)` on the cell at position `p`. -/
def Maze.set_distance (m : Maze) (p : Pos) (v : Option Nat) (start : Bool) : Maze :=
  if start then
    { m with distance_to_start := fun q => if q = p then v else m.distance_to_start q }
  else
    { m with distance_to_goal := fun q => if q = p then v else m.distance_to_goal q }

/-- `Maze.get_reachable_neighbors`: for each direction in enum order, the
neighbour cell if it is in bounds and this cell has no wall in that
direction. -/
def Maze.get_reachable_neighbors (m : Maze) (p : Pos) : List MazeCell :=
  allDirections.filterMap fun d =>
    let neighbor := d.add_to_position p
    if m.contains neighbor && !((m.walls p).get d) then some (m.get_cell neighbor) else none

/-- C10: for every direction and position the instance method
`Direction.add_to_position` and the static method
`Direction.get_position_from_direction` compute the same displaced
position. -/
theorem direction_displacement_agree (d : Direction) (p : Pos) :
    d.add_to_position p = Direction.get_position_from_direction p d := by
  cases d <;> rfl

/-- Displacing a position never returns the same position. -/
theorem Direction.add_to_position_ne (d : Direction) (p : Pos) :
    d.add_to_position p ≠ p := by
  cases d <;> intro hcon <;>
    (simp only [Direction.add_to_position, Prod.ext_iff] at hcon; omega)

/-- Displacement in a fixed direction is injective in the position. -/
theorem Direction.add_to_position_left_inj (d : Direction) {p q : Pos}
    (h : d.add_to_position p = d.add_to_position q) : p = q := by
  cases d <;> simp only [Direction.add_to_position, Prod.ext_iff] at h ⊢ <;>
    exact ⟨by omega, by omega⟩

/-- Two directions displacing one position to the same place are equal. -/
theorem Direction.add_to_position_dir_inj {d e : Direction} (p : Pos)
    (h : d.add_to_position p = e.add_to_position p) : d = e := by
  cases d <;> cases e <;> first
    | rfl
    | (exfalso; simp only [Direction.add_to_position, Prod.ext_iff] at h; omega)

/-- Rotating by 180 degrees twice is the identity. -/
theorem Direction.minus_180_minus_180 (d : Direction) :
    d.minus_180.minus_180 = d := by
  cases d <;> decide

/-- Stepping forward and then stepping in the opposite direction returns to
the original position. -/
theorem Direction.minus_180_add_to_position (d : Direction) (p : Pos) :
    d.minus_180.add_to_position (d.add_to_position p) = p := by
  have hN : Direction.minus_180 .NORTH = .SOUTH := by decide
  have hE : Direction.minus_180 .EAST = .WEST := by decide
  have hS : Direction.minus_180 .SOUTH = .NORTH := by decide
  have hW : Direction.minus_180 .WEST = .EAST := by decide
  cases d <;>
    simp [hN, hE, hS, hW, Direction.add_to_position, Prod.ext_iff]

/-- Applying `Direction.minus_180` is injective. -/
theorem Direction.minus_180_inj {d e : Direction} (h : d.minus_180 = e.minus_180) :
    d = e := by
  have := congrArg Direction.minus_180 h
  rwa [Direction.minus_180_minus_180, Direction.minus_180_minus_180] at this

/-- Reading a wall flag just after setting that same flag. -/
theorem Walls.get_set_same (w : Walls) (d : Direction) (b : Bool) :
    (w.set d b).get d = b := by
  cases d <;> rfl

/-- Reading a wall flag in a different direction than the one just set. -/
theorem Walls.get_set_ne (w : Walls) {d e : Direction} (b : Bool) (h : e ≠ d) :
    (w.set d b).get e = w.get e := by
  cases d <;> cases e <;> simp_all [Walls.set, Walls.get]

/-- Bounds checks are unaffected by `Maze.set_wall`. -/
theorem Maze.set_wall_contains (m : Maze) (p : Pos) (d : Direction) (q : Pos) :
    (m.set_wall p d).contains q = m.contains q := by
  unfold Maze.set_wall
  dsimp only
  split <;> rfl

/-- Evaluation of the wall state after a single-cell wall write. -/
theorem Maze.cell_set_wall_get (m : Maze) (p : Pos) (d : Direction) (r : Pos)
    (e : Direction) :
    ((m.cell_set_wall p d).walls r).get e =
      if r = p ∧ e = d then true else (m.walls r).get e := by
  unfold Maze.cell_set_wall
  dsimp only
  by_cases hr : r = p
  · subst hr
    rw [if_pos rfl]
    by_cases he : e = d
    · subst he
      rw [if_pos ⟨rfl, rfl⟩, Walls.get_set_same]
    · rw [Walls.get_set_ne _ _ he, if_neg fun hc => he hc.2]
  · rw [if_neg hr, if_neg fun hc => hr hc.1]

/-- Evaluation of the wall state after `Maze.set_wall` when the neighbour
across the new wall is in bounds: both sides of the wall are written. -/
theorem Maze.set_wall_get_walls (m : Maze) (p : Pos) (d : Direction)
    (hnb : m.contains (d.add_to_position p) = true) (r : Pos) (e : Direction) :
    ((m.set_wall p d).walls r).get e =
      if r = d.add_to_position p ∧ e = d.minus_180 then true
      else if r = p ∧ e = d then true
      else (m.walls r).get e := by
  unfold Maze.set_wall
  dsimp only
  rw [if_pos hnb, Maze.cell_set_wall_get, Maze.cell_set_wall_get]

/-- Evaluation of the wall state after `Maze.set_wall` when the neighbour is
out of bounds: only the near side is written (`IndexError` was swallowed). -/
theorem Maze.set_wall_get_walls_oob (m : Maze) (p : Pos) (d : Direction)
    (hnb : m.contains (d.add_to_position p) = false) (r : Pos) (e : Direction) :
    ((m.set_wall p d).walls r).get e =
      if r = p ∧ e = d then true else (m.walls r).get e := by
  unfold Maze.set_wall
  dsimp only
  rw [if_neg (by simp [hnb]), Maze.cell_set_wall_get]

/-- Wall-state symmetry invariant: for every pair of adjacent in-bounds
cells, the near cell's wall toward the neighbour agrees with the
neighbour's wall back toward it. -/
def WallSym (m : Maze) : Prop :=
  ∀ p d, m.contains p = true → m.contains (d.add_to_position p) = true →
    (m.walls p).get d = (m.walls (d.add_to_position p)).get d.minus_180

/-- C3: any call to `Maze.set_wall` preserves wall-state symmetry — both
sides of a learned wall are written together whenever the neighbour exists. -/
theorem set_wall_preserves_wall_symmetry (m : Maze) (p : Pos) (d : Direction)
    (h : WallSym m) : WallSym (m.set_wall p d) := by
  intro q e hq he
  rw [Maze.set_wall_contains] at hq he
  have hqe : e.minus_180.add_to_position (e.add_to_position q) = q :=
    Direction.minus_180_add_to_position e q
  by_cases hnb : m.contains (d.add_to_position p) = true
  · rw [Maze.set_wall_get_walls m p d hnb, Maze.set_wall_get_walls m p d hnb]
    by_cases h1 : q = d.add_to_position p ∧ e = d.minus_180
    · -- far side of the new wall, looking back across it
      have htp : e.add_to_position q = p := by
        rw [h1.1, h1.2, Direction.minus_180_add_to_position]
      rw [if_pos h1, if_neg (by
          rintro ⟨h2, -⟩
          exact Direction.add_to_position_ne d p (htp ▸ h2).symm),
        if_pos ⟨htp, by rw [h1.2, Direction.minus_180_minus_180]⟩]
    · rw [if_neg h1]
      by_cases h2 : q = p ∧ e = d
      · -- near side of the new wall, looking forward across it
        rw [if_pos h2, if_pos ⟨by rw [h2.1, h2.2], by rw [h2.2]⟩]
      · rw [if_neg h2]
        by_cases h3 : e.add_to_position q = d.add_to_position p ∧
            e.minus_180 = d.minus_180
        · exfalso
          apply h2
          have he' : e = d := Direction.minus_180_inj h3.2
          rw [he'] at h3
          exact ⟨Direction.add_to_position_left_inj d h3.1, he'⟩
        · rw [if_neg h3]
          by_cases h4 : e.add_to_position q = p ∧ e.minus_180 = d
          · exfalso
            apply h1
            have he' : e = d.minus_180 := by
              rw [← h4.2, Direction.minus_180_minus_180]
            refine ⟨?_, he'⟩
            rw [← hqe, h4.1, h4.2]
          · rw [if_neg h4]
            exact h q e hq he
  · have hnb' : m.contains (d.add_to_position p) = false := by
      simpa using hnb
    rw [Maze.set_wall_get_walls_oob m p d hnb',
      Maze.set_wall_get_walls_oob m p d hnb']
    by_cases h2 : q = p ∧ e = d
    · -- the far cell would be out of bounds, contradicting he
      exfalso
      rw [h2.1, h2.2] at he
      rw [hnb'] at he
      exact Bool.false_ne_true he
    · rw [if_neg h2]
      by_cases h4 : e.add_to_position q = p ∧ e.minus_180 = d
      · -- q itself would be the out-of-bounds far cell, contradicting hq
        exfalso
        have hq' : q = d.add_to_position p := by
          rw [← hqe, h4.1, h4.2]
        rw [hq', hnb'] at hq
        exact Bool.false_ne_true hq
      · rw [if_neg h4]
        exact h q e hq he

/-- Small wall-free maze used as a concrete instance for the symmetry
preservation theorem. -/
def openTestMaze : Maze :=
  { width := 2
    height := 2
    walls := fun _ => { north := false, east := false, south := false, west := false }
    distance_to_goal := fun _ => none
    distance_to_start := fun _ => none
    confirmed_distance := fun _ => false }

/-- Witness for C3: the wall-free 2 by 2 maze is symmetric, and stays
symmetric after learning an east wall at the origin. -/
theorem set_wall_preserves_wall_symmetry_witness :
    WallSym openTestMaze ∧ WallSym (openTestMaze.set_wall (0, 0) .EAST) := by
  have hsym : WallSym openTestMaze := by
    intro p e _ _
    cases e <;> rfl
  exact ⟨hsym, set_wall_preserves_wall_symmetry openTestMaze (0, 0) .EAST hsym⟩

/-- Reset phase of `Maze.update_flood_fill_distances`: the loop
`for cell in self.cells: cell.set_distance(None, start=start)` clears the
selected distance field of every cell. -/
def Maze.ff_reset (m : Maze) (start : Bool) : Maze :=
  if start then { m with distance_to_start := fun _ => none }
  else { m with distance_to_goal := fun _ => none }

/-- Inner loop of the flood fill: for each reachable neighbour (in enum
direction order) whose selected distance is still unknown, set it to `dv`
(the popped cell's distance plus one) and append it to the queue.  Python
appends to the same deque it is consuming; `q` is the remainder of that
deque.  Drawing (`API.setText`) is external and dropped. -/
def ff_process (start : Bool) (dv : Nat) :
    Maze → List Pos → List Pos → Maze × List Pos
  | m, [], q => (m, q)
  | m, nb :: rest, q =>
    if (m.get_distance nb start).isNone then
      ff_process start dv (m.set_distance nb (some dv) start) rest (q ++ [nb])
    else
      ff_process start dv m rest q

/-- Outer `while queue:` loop of the flood fill.  The Python deque holds
`MazeCell` references; all their field reads and writes go through the
shared maze state, so the queue is modelled by the cells' positions.
`none` models the two situations in which the Python loop would not return
normally: fuel exhaustion (never reached, see `ff_loop_no_fuel_out`) and a
popped cell with unknown distance, which would make
`cell.get_distance(start=start) + 1` raise a `TypeError` (also never
reached: only cells whose distance was just set are enqueued). -/
def ff_loop (start : Bool) : Nat → Maze → List Pos → Option Maze
  | 0, _, _ => none
  | _ + 1, m, [] => some m
  | fuel + 1, m, p :: rest =>
    match m.get_distance p start with
    | none => none
    | some k =>
      let step :=
        ff_process start (k + 1) m
          ((m.get_reachable_neighbors p).map MazeCell.position) rest
      ff_loop start fuel step.1 step.2

/-- Fuel bound for the flood-fill loop: each iteration either consumes a
queue entry without any write, or performs at least one unknown-to-known
distance write, so `5·width·height + 2` steps always suffice. -/
def Maze.ff_fuel (m : Maze) : Nat := 5 * (m.width.toNat * m.height.toNat) + 2

/-- `Maze.update_flood_fill_distances(goal, start)`: reset the selected
field, set the goal cell to 0 and run the breadth-first propagation.  The
`contains` guard models the `IndexError` that `self.get_cell(goal)` raises
for an out-of-bounds target.  The `draw` parameter only drives external
`API` text annotations and is dropped. -/
def Maze.update_flood_fill_distances (m : Maze) (goal : Pos) (start : Bool) :
    Option Maze :=
  if m.contains goal then
    ff_loop start m.ff_fuel ((m.ff_reset start).set_distance goal (some 0) start) [goal]
  else none

/-- One traversable edge-hop as tested by `Maze.get_reachable_neighbors`:
the target of the step is in bounds and the stepping cell records no wall
in that direction. -/
def Maze.openStep (m : Maze) (p : Pos) (d : Direction) : Bool :=
  m.contains (d.add_to_position p) && !((m.walls p).get d)

/-- Reachability from `g` in at most `n` traversable edge-hops, following
exactly the edges `Maze.get_reachable_neighbors` explores. -/
def reachesInB (m : Maze) (g : Pos) : Nat → Pos → Bool
  | 0, p => decide (p = g)
  | n + 1, p =>
    reachesInB m g n p ||
      allDirections.any fun d =>
        m.openStep (d.minus_180.add_to_position p) d &&
          reachesInB m g n (d.minus_180.add_to_position p)

/-- The true shortest hop-count from `g` to `p` is `k`: reachable within
`k` hops but not within fewer. -/
def IsTrueDist (m : Maze) (g : Pos) (p : Pos) (k : Nat) : Prop :=
  reachesInB m g k p = true ∧ ∀ j < k, reachesInB m g j p = false

/-- The position is reachable from `g` through traversable edge-hops. -/
def Reachable (m : Maze) (g : Pos) (p : Pos) : Prop :=
  ∃ n, reachesInB m g n p = true

/-- Frame relation of one flood-fill run: everything except the selected
distance field is unchanged. -/
def OnlySelectedDist (start : Bool) (m m' : Maze) : Prop :=
  m'.width = m.width ∧ m'.height = m.height ∧ m'.walls = m.walls ∧
    m'.confirmed_distance = m.confirmed_distance ∧
    (if start then m'.distance_to_goal = m.distance_to_goal
     else m'.distance_to_start = m.distance_to_start)

theorem OnlySelectedDist.refl (start : Bool) (m : Maze) :
    OnlySelectedDist start m m := by
  refine ⟨rfl, rfl, rfl, rfl, ?_⟩
  cases start <;> simp

theorem OnlySelectedDist.trans {start : Bool} {m1 m2 m3 : Maze}
    (h1 : OnlySelectedDist start m1 m2) (h2 : OnlySelectedDist start m2 m3) :
    OnlySelectedDist start m1 m3 := by
  obtain ⟨a1, b1, c1, d1, e1⟩ := h1
  obtain ⟨a2, b2, c2, d2, e2⟩ := h2
  refine ⟨a2.trans a1, b2.trans b1, c2.trans c1, d2.trans d1, ?_⟩
  cases start <;> simp_all

theorem Maze.set_distance_frame (m : Maze) (p : Pos) (v : Option Nat)
    (start : Bool) : OnlySelectedDist start m (m.set_distance p v start) := by
  cases start <;> exact ⟨rfl, rfl, rfl, rfl, by simp [Maze.set_distance]⟩

theorem Maze.ff_reset_frame (m : Maze) (start : Bool) :
    OnlySelectedDist start m (m.ff_reset start) := by
  cases start <;> exact ⟨rfl, rfl, rfl, rfl, by simp [Maze.ff_reset]⟩

theorem ff_process_frame (start : Bool) (dv : Nat) :
    ∀ (nbrs : List Pos) (m : Maze) (q : List Pos),
      OnlySelectedDist start m (ff_process start dv m nbrs q).1 := by
  intro nbrs
  induction nbrs with
  | nil => intro m q; exact OnlySelectedDist.refl start m
  | cons nb rest ih =>
    intro m q
    rw [ff_process]
    by_cases hd : (m.get_distance nb start).isNone
    · rw [if_pos hd]
      exact (Maze.set_distance_frame m nb (some dv) start).trans
        (ih (m.set_distance nb (some dv) start) (q ++ [nb]))
    · rw [if_neg hd]
      exact ih m q

theorem ff_loop_frame (start : Bool) :
    ∀ (fuel : Nat) (m : Maze) (q : List Pos) (m' : Maze),
      ff_loop start fuel m q = some m' → OnlySelectedDist start m m' := by
  intro fuel
  induction fuel with
  | zero => intro m q m' h; exact absurd h (by rw [ff_loop]; exact Option.noConfusion)
  | succ fuel ih =>
    intro m q m' h
    match q with
    | [] =>
      rw [ff_loop] at h
      cases h
      exact OnlySelectedDist.refl start m
    | p :: rest =>
      rw [ff_loop] at h
      match hd : m.get_distance p start with
      | none => rw [hd] at h; exact absurd h (by exact Option.noConfusion)
      | some k =>
        rw [hd] at h
        dsimp only at h
        exact (ff_process_frame start (k + 1)
          ((m.get_reachable_neighbors p).map MazeCell.position) m rest).trans
          (ih _ _ m' h)

/-- C5: one flood-fill run rewrites only the selected distance field:
with `start=False` every cell keeps its `distance_to_start`, walls,
position and confirmation flag; with `start=True` every cell keeps its
`distance_to_goal` (and likewise walls, position, confirmation). -/
theorem flood_fill_frame_effect (m : Maze) (goal : Pos) (b : Bool) (m' : Maze)
    (h : m.update_flood_fill_distances goal b = some m') :
    m'.walls = m.walls ∧ m'.confirmed_distance = m.confirmed_distance ∧
      (∀ p, (m'.get_cell p).position = (m.get_cell p).position) ∧
      (b = false → m'.distance_to_start = m.distance_to_start) ∧
      (b = true → m'.distance_to_goal = m.distance_to_goal) := by
  unfold Maze.update_flood_fill_distances at h
  by_cases hg : m.contains goal = true
  · rw [if_pos hg] at h
    have h1 := (Maze.ff_reset_frame m b).trans
      ((Maze.set_distance_frame (m.ff_reset b) goal (some 0) b).trans
        (ff_loop_frame b m.ff_fuel _ [goal] m' h))
    obtain ⟨-, -, hw, hc, hsel⟩ := h1
    refine ⟨hw, hc, fun p => rfl, ?_, ?_⟩
    · intro hb; rw [hb] at hsel; simpa using hsel
    · intro hb; rw [hb] at hsel; simpa using hsel
  · rw [if_neg hg] at h
    exact absurd h (by exact Option.noConfusion)

/-- Witness for C5: a concrete flood-fill run on the 1 by 1 maze returns a
state with untouched start-distances and walls. -/
theorem flood_fill_frame_effect_witness :
    ∃ m', (Maze.init 1 1).update_flood_fill_distances (0, 0) false = some m' ∧
      m'.distance_to_start = (Maze.init 1 1).distance_to_start ∧
      m'.walls = (Maze.init 1 1).walls := by
  obtain ⟨hw, hc, hp, hs, hg⟩ :=
    flood_fill_frame_effect (Maze.init 1 1) (0, 0) false
      (((Maze.init 1 1).update_flood_fill_distances (0, 0) false).getD
        (Maze.init 1 1)) rfl
  exact ⟨_, rfl, hs rfl, hw⟩

/-- Reachability within a hop budget is monotone in the budget. -/
theorem reachesInB_mono (m : Maze) (g : Pos) {j k : Nat} (hjk : j ≤ k) {p : Pos}
    (h : reachesInB m g j p = true) : reachesInB m g k p = true := by
  induction k with
  | zero =>
    have : j = 0 := Nat.le_zero.mp hjk
    exact this ▸ h
  | succ k ih =>
    rcases Nat.lt_or_ge j (k + 1) with hlt | hge
    · have hk := ih (Nat.lt_succ_iff.mp hlt)
      rw [reachesInB, hk, Bool.true_or]
    · have : j = k + 1 := Nat.le_antisymm hjk hge
      exact this ▸ h

/-- Taking one traversable hop extends reachability by one. -/
theorem reachesInB_step (m : Maze) (g : Pos) {n : Nat} {q : Pos} (d : Direction)
    (hopen : m.openStep q d = true) (h : reachesInB m g n q = true) :
    reachesInB m g (n + 1) (d.add_to_position q) = true := by
  rw [reachesInB]
  simp only [Bool.or_eq_true, List.any_eq_true, Bool.and_eq_true]
  refine Or.inr ⟨d, by cases d <;> simp [allDirections], ?_⟩
  rw [Direction.minus_180_add_to_position]
  exact ⟨hopen, h⟩

/-- Decomposition of reachability with a positive hop budget. -/
theorem reachesInB_succ_elim (m : Maze) (g : Pos) {n : Nat} {p : Pos}
    (h : reachesInB m g (n + 1) p = true) :
    reachesInB m g n p = true ∨
      ∃ d, m.openStep (d.minus_180.add_to_position p) d = true ∧
        reachesInB m g n (d.minus_180.add_to_position p) = true ∧
        d.add_to_position (d.minus_180.add_to_position p) = p := by
  rw [reachesInB] at h
  simp only [Bool.or_eq_true, List.any_eq_true, Bool.and_eq_true] at h
  rcases h with h0 | ⟨d, -, ho, hr⟩
  · exact Or.inl h0
  · refine Or.inr ⟨d, ho, hr, ?_⟩
    have := Direction.minus_180_add_to_position d.minus_180 p
    rwa [Direction.minus_180_minus_180] at this

/-- Every reachable position has a least hop-count. -/
theorem Reachable.exists_true_dist {m : Maze} {g p : Pos} (h : Reachable m g p) :
    ∃ k, IsTrueDist m g p k := by
  have hfind := Nat.find_spec h
  refine ⟨Nat.find h, hfind, fun j hj => ?_⟩
  have := Nat.find_min h hj
  exact Bool.not_eq_true _ ▸ eq_false_of_ne_true this

/-- The true distance is unique. -/
theorem IsTrueDist.unique {m : Maze} {g p : Pos} {k k' : Nat}
    (h : IsTrueDist m g p k) (h' : IsTrueDist m g p k') : k = k' := by
  rcases Nat.lt_trichotomy k k' with hlt | heq | hgt
  · exact absurd h.1 (by rw [h'.2 k hlt]; exact Bool.false_ne_true)
  · exact heq
  · exact absurd h'.1 (by rw [h.2 k' hgt]; exact Bool.false_ne_true)

/-- The target itself has true distance zero. -/
theorem isTrueDist_self (m : Maze) (g : Pos) : IsTrueDist m g g 0 :=
  ⟨by rw [reachesInB]; exact decide_eq_true rfl, fun j hj => absurd hj (Nat.not_lt_zero j)⟩

/-- A position with true distance zero is the target. -/
theorem IsTrueDist.eq_of_zero {m : Maze} {g p : Pos} (h : IsTrueDist m g p 0) :
    p = g := by
  have := h.1
  rw [reachesInB] at this
  exact of_decide_eq_true this

/-- A position at true distance `n+1` has a predecessor at true distance `n`
across one traversable hop. -/
theorem IsTrueDist.pred {m : Maze} {g p : Pos} {n : Nat}
    (h : IsTrueDist m g p (n + 1)) :
    ∃ q d, IsTrueDist m g q n ∧ m.openStep q d = true ∧
      d.add_to_position q = p := by
  rcases reachesInB_succ_elim m g h.1 with h0 | ⟨d, ho, hr, heq⟩
  · exact absurd h0 (by rw [h.2 n (Nat.lt_succ_self n)]; exact Bool.false_ne_true)
  · set q := d.minus_180.add_to_position p with hq
    have hreach : Reachable m g q := ⟨n, hr⟩
    obtain ⟨k, hk⟩ := hreach.exists_true_dist
    have hkn : k ≤ n := by
      by_contra hgt
      have := hk.2 n (Nat.lt_of_not_le hgt)
      rw [this] at hr
      exact Bool.false_ne_true hr
    have hke : k = n := by
      rcases Nat.lt_or_ge k n with hlt | hge
      · exfalso
        have hstep := reachesInB_step m g d ho hk.1
        rw [heq] at hstep
        have := h.2 (k + 1) (by omega)
        rw [this] at hstep
        exact Bool.false_ne_true hstep
      · exact Nat.le_antisymm hkn hge
    exact ⟨q, d, hke ▸ hk, ho, heq⟩

/-- Reading the selected distance after a write to it. -/
theorem Maze.get_distance_set_distance (m : Maze) (p : Pos) (v : Option Nat)
    (start : Bool) (r : Pos) :
    (m.set_distance p v start).get_distance r start =
      if r = p then v else m.get_distance r start := by
  cases start <;> simp [Maze.set_distance, Maze.get_distance]

/-- Reading the selected distance after the reset phase. -/
theorem Maze.get_distance_ff_reset (m : Maze) (start : Bool) (r : Pos) :
    (m.ff_reset start).get_distance r start = none := by
  cases start <;> simp [Maze.ff_reset, Maze.get_distance]

/-- Bounds checks only depend on the dimensions. -/
theorem Maze.contains_congr {m M : Maze} (hw : m.width = M.width)
    (hh : m.height = M.height) (p : Pos) : m.contains p = M.contains p := by
  unfold Maze.contains
  rw [hw, hh]

/-- Traversability only depends on dimensions and walls. -/
theorem Maze.openStep_congr {m M : Maze} (hw : m.width = M.width)
    (hh : m.height = M.height) (hW : m.walls = M.walls) (p : Pos) (d : Direction) :
    m.openStep p d = M.openStep p d := by
  unfold Maze.openStep
  rw [Maze.contains_congr hw hh, hW]

/-- Positions of the cells returned by `Maze.get_reachable_neighbors`:
exactly the in-bounds neighbours with no wall in between. -/
theorem Maze.mem_reachable_positions (m : Maze) (p : Pos) (r : Pos) :
    r ∈ (m.get_reachable_neighbors p).map MazeCell.position ↔
      ∃ d, m.openStep p d = true ∧ r = d.add_to_position p := by
  unfold Maze.get_reachable_neighbors Maze.openStep
  constructor
  · intro h
    simp only [List.mem_map, List.mem_filterMap] at h
    obtain ⟨c, ⟨d, -, hd⟩, hcr⟩ := h
    cases hcond : (m.contains (d.add_to_position p) && !((m.walls p).get d)) with
    | true =>
      simp only [hcond, if_true] at hd
      cases hd
      exact ⟨d, hcond, by rw [← hcr]; rfl⟩
    | false =>
      simp only [hcond, Bool.false_eq_true, if_false] at hd
      exact Option.noConfusion hd
  · rintro ⟨d, hd, rfl⟩
    simp only [List.mem_map, List.mem_filterMap]
    refine ⟨m.get_cell (d.add_to_position p),
      ⟨d, by cases d <;> simp [allDirections], ?_⟩, rfl⟩
    rw [if_pos hd]

/-- Row-major enumeration of the in-bounds positions (the order in which
`Maze.__init__` creates its cells). -/
def gridPositions (m : Maze) : List Pos :=
  (List.range m.height.toNat).flatMap fun y =>
    (List.range m.width.toNat).map fun x => (Int.ofNat x, Int.ofNat y)

/-- Every in-bounds position occurs in the enumeration. -/
theorem mem_gridPositions_of_contains {m : Maze} {p : Pos}
    (h : m.contains p = true) : p ∈ gridPositions m := by
  unfold Maze.contains at h
  simp only [Bool.and_eq_true, decide_eq_true_eq] at h
  obtain ⟨⟨⟨h1, h2⟩, h3⟩, h4⟩ := h
  unfold gridPositions
  refine List.mem_flatMap.mpr ⟨p.2.toNat, List.mem_range.mpr (by omega), ?_⟩
  refine List.mem_map.mpr ⟨p.1.toNat, List.mem_range.mpr (by omega), ?_⟩
  simp only [Prod.ext_iff]
  constructor <;> simp <;> omega

/-- Length of a flat map whose pieces all have the same length. -/
theorem flatMap_fixed_length {α β : Type} (f : α → List β) (k : Nat)
    (l : List α) (h : ∀ a ∈ l, (f a).length = k) :
    (l.flatMap f).length = l.length * k := by
  induction l with
  | nil => simp
  | cons a t ih =>
    rw [List.flatMap_cons, List.length_append, h a (by simp),
      ih fun b hb => h b (by simp [hb]), List.length_cons]
    ring

/-- The enumeration has exactly `width·height` entries. -/
theorem gridPositions_length (m : Maze) :
    (gridPositions m).length = m.width.toNat * m.height.toNat := by
  unfold gridPositions
  rw [flatMap_fixed_length _ m.width.toNat _ fun y _ => by
    rw [List.length_map, List.length_range]]
  rw [List.length_range, Nat.mul_comm]

/-- Counting predicate flips: if `Q` implies `P` pointwise and fails on a
listed element where `P` holds, then `Q` counts strictly fewer elements. -/
theorem countP_lt_of_flip {α : Type} {l : List α} {P Q : α → Bool} {x : α}
    (hx : x ∈ l) (hmono : ∀ a, Q a = true → P a = true)
    (hPx : P x = true) (hQx : Q x = false) :
    l.countP Q < l.countP P := by
  obtain ⟨l1, l2, rfl⟩ := List.append_of_mem hx
  have hle : ∀ t : List α, t.countP Q ≤ t.countP P := fun t =>
    List.countP_mono_left fun a _ => hmono a
  have e1 : (l1 ++ x :: l2).countP P = l1.countP P + (l2.countP P + 1) := by
    rw [List.countP_append, List.countP_cons, hPx]
    simp
  have e2 : (l1 ++ x :: l2).countP Q = l1.countP Q + l2.countP Q := by
    rw [List.countP_append, List.countP_cons, hQx]
    simp
  rw [e1, e2]
  have g1 := hle l1
  have g2 := hle l2
  omega

/-- Number of in-bounds cells whose selected distance is still unknown. -/
def ffNoneCount (M : Maze) (start : Bool) (m : Maze) : Nat :=
  (gridPositions M).countP fun p => (m.get_distance p start).isNone

/-- Termination measure of the flood-fill loop. -/
def ffMeasure (M : Maze) (start : Bool) (m : Maze) (q : List Pos) : Nat :=
  5 * ffNoneCount M start m + q.length

/-- Loop invariant of the flood-fill `while` loop, stated against the
original maze `M` (whose geometry the loop never changes). -/
structure FFInv (M : Maze) (g : Pos) (start : Bool) (m : Maze) (q : List Pos) :
    Prop where
  geomWidth : m.width = M.width
  geomHeight : m.height = M.height
  geomWalls : m.walls = M.walls
  queueOK : ∀ p ∈ q, M.contains p = true ∧ (m.get_distance p start).isSome
  exactDist : ∀ p k, m.get_distance p start = some k → IsTrueDist M g p k
  closedOK : ∀ p, (m.get_distance p start).isSome → p ∈ q ∨
    ∀ d, M.openStep p d = true → (m.get_distance (d.add_to_position p) start).isSome
  layered : ∃ c q1 q2, q = q1 ++ q2 ∧
    (∀ p ∈ q1, m.get_distance p start = some c) ∧
    (∀ p ∈ q2, m.get_distance p start = some (c + 1))
  thresh : ∀ p n, IsTrueDist M g p n →
    (∀ hd tl, q = hd :: tl → ∃ c, m.get_distance hd start = some c ∧ n ≤ c) →
    (m.get_distance p start).isSome

/-- Invariant holding while the neighbours of the popped cell `h0` (whose
selected distance is `c`) are processed; `rem` is the list of neighbour
positions still to be examined. -/
structure FFMid (M : Maze) (g : Pos) (start : Bool) (h0 : Pos) (c : Nat)
    (rem : List Pos) (m : Maze) (q : List Pos) : Prop where
  geomWidth : m.width = M.width
  geomHeight : m.height = M.height
  geomWalls : m.walls = M.walls
  hSet : m.get_distance h0 start = some c
  queueOK : ∀ p ∈ q, M.contains p = true ∧ (m.get_distance p start).isSome
  exactDist : ∀ p k, m.get_distance p start = some k → IsTrueDist M g p k
  closedOK : ∀ p, (m.get_distance p start).isSome → p ∈ q ∨
    (∀ d, M.openStep p d = true →
      (m.get_distance (d.add_to_position p) start).isSome) ∨
    (p = h0 ∧ ∀ d, M.openStep h0 d = true →
      ((m.get_distance (d.add_to_position h0) start).isSome ∨
        d.add_to_position h0 ∈ rem))
  remIn : ∀ r ∈ rem, ∃ d, M.openStep h0 d = true ∧ r = d.add_to_position h0
  layered : ∃ q1 q2, q = q1 ++ q2 ∧
    (∀ p ∈ q1, m.get_distance p start = some c) ∧
    (∀ p ∈ q2, m.get_distance p start = some (c + 1))
  threshC : ∀ p n, IsTrueDist M g p n → n ≤ c → (m.get_distance p start).isSome

/-- A traversable step lands in bounds. -/
theorem Maze.openStep_contains {M : Maze} {p : Pos} {d : Direction}
    (h : M.openStep p d = true) : M.contains (d.add_to_position p) = true := by
  unfold Maze.openStep at h
  simp only [Bool.and_eq_true] at h
  exact h.1

/-- Processing the remaining neighbours preserves the mid-loop invariant and
never increases the measure. -/
theorem ff_process_mid (M : Maze) (g : Pos) (start : Bool) (h0 : Pos) (c : Nat) :
    ∀ (rem : List Pos) (m : Maze) (q : List Pos),
      FFMid M g start h0 c rem m q →
      FFMid M g start h0 c [] (ff_process start (c + 1) m rem q).1
          (ff_process start (c + 1) m rem q).2 ∧
        ffMeasure M start (ff_process start (c + 1) m rem q).1
            (ff_process start (c + 1) m rem q).2 ≤
          ffMeasure M start m q := by
  intro rem
  induction rem with
  | nil =>
    intro m q mid
    rw [ff_process]
    exact ⟨mid, Nat.le_refl _⟩
  | cons nb rest ih =>
    intro m q mid
    rw [ff_process]
    by_cases hnb : (m.get_distance nb start).isNone
    · rw [if_pos hnb]
      have hnone : m.get_distance nb start = none := Option.isNone_iff_eq_none.mp hnb
      obtain ⟨d0, hopen0, hnb0⟩ := mid.remIn nb (by simp)
      have hcont : M.contains nb = true := hnb0 ▸ Maze.openStep_contains hopen0
      set m1 := m.set_distance nb (some (c + 1)) start with hm1
      have hget1 : ∀ r, m1.get_distance r start =
          if r = nb then some (c + 1) else m.get_distance r start := fun r =>
        Maze.get_distance_set_distance m nb (some (c + 1)) start r
      have hmono1 : ∀ r k, m.get_distance r start = some k →
          m1.get_distance r start = some k := by
        intro r k hr
        rw [hget1]
        by_cases hrnb : r = nb
        · rw [hrnb] at hr
          rw [hr] at hnone
          exact Option.noConfusion hnone
        · rw [if_neg hrnb]; exact hr
      have hframe := Maze.set_distance_frame m nb (some (c + 1)) start
      have hnbdist : IsTrueDist M g nb (c + 1) := by
        constructor
        · have hh0 := (mid.exactDist h0 c mid.hSet).1
          have := reachesInB_step M g d0 hopen0 hh0
          rwa [← hnb0] at this
        · intro j hj
          by_contra hcon
          have hreach : reachesInB M g j nb = true := by
            cases hh : reachesInB M g j nb with
            | true => rfl
            | false => exact absurd hh hcon
          obtain ⟨k, hk⟩ := Reachable.exists_true_dist ⟨j, hreach⟩
          have hkj : k ≤ j := by
            by_contra hgt
            have := hk.2 j (Nat.lt_of_not_le hgt)
            rw [this] at hreach
            exact Bool.false_ne_true hreach
          have := mid.threshC nb k hk (by omega)
          rw [hnone] at this
          exact Bool.false_ne_true this
      have midNext : FFMid M g start h0 c rest m1 (q ++ [nb]) := by
        refine ⟨?_, ?_, ?_, ?_, ?_, ?_, ?_, ?_, ?_, ?_⟩
        · exact hframe.1.trans mid.geomWidth
        · exact hframe.2.1.trans mid.geomHeight
        · exact hframe.2.2.1.trans mid.geomWalls
        · exact hmono1 h0 c mid.hSet
        · intro p hp
          rcases List.mem_append.mp hp with hp1 | hp2
          · obtain ⟨hca, hsa⟩ := mid.queueOK p hp1
            obtain ⟨k, hk⟩ := Option.isSome_iff_exists.mp hsa
            exact ⟨hca, by rw [hmono1 p k hk]; rfl⟩
          · have : p = nb := by simpa using hp2
            subst this
            exact ⟨hcont, by rw [hget1, if_pos rfl]; rfl⟩
        · intro p k hk
          rw [hget1] at hk
          by_cases hpnb : p = nb
          · rw [if_pos hpnb] at hk
            cases hk
            exact hpnb ▸ hnbdist
          · rw [if_neg hpnb] at hk
            exact mid.exactDist p k hk
        · intro p hp
          rw [hget1] at hp
          by_cases hpnb : p = nb
          · exact Or.inl (List.mem_append.mpr (Or.inr (by simp [hpnb])))
          · rw [if_neg hpnb] at hp
            rcases mid.closedOK p hp with hq | hsucc | ⟨hph, hdirs⟩
            · exact Or.inl (List.mem_append.mpr (Or.inl hq))
            · refine Or.inr (Or.inl ?_)
              intro d hd
              obtain ⟨k, hk⟩ := Option.isSome_iff_exists.mp (hsucc d hd)
              rw [hmono1 _ k hk]; rfl
            · refine Or.inr (Or.inr ⟨hph, ?_⟩)
              intro d hd
              rcases hdirs d hd with hs | hmem
              · obtain ⟨k, hk⟩ := Option.isSome_iff_exists.mp hs
                exact Or.inl (by rw [hmono1 _ k hk]; rfl)
              · rcases List.mem_cons.mp hmem with heq | hrest
                · refine Or.inl ?_
                  rw [hget1, heq, if_pos rfl]; rfl
                · exact Or.inr hrest
        · intro r hr
          exact mid.remIn r (by simp [hr])
        · obtain ⟨q1, q2, hsplit, h1, h2⟩ := mid.layered
          refine ⟨q1, q2 ++ [nb], by rw [hsplit, List.append_assoc], ?_, ?_⟩
          · intro p hp
            exact hmono1 p c (h1 p hp)
          · intro p hp
            rcases List.mem_append.mp hp with hp2 | hpnb
            · exact hmono1 p (c + 1) (h2 p hp2)
            · have : p = nb := by simpa using hpnb
              rw [this, hget1, if_pos rfl]
        · intro p n hist hn
          obtain ⟨k, hk⟩ := Option.isSome_iff_exists.mp (mid.threshC p n hist hn)
          rw [hmono1 p k hk]; rfl
      obtain ⟨midFin, hmeas⟩ := ih m1 (q ++ [nb]) midNext
      refine ⟨midFin, le_trans hmeas ?_⟩
      unfold ffMeasure
      have hlt : ffNoneCount M start m1 < ffNoneCount M start m := by
        refine countP_lt_of_flip (mem_gridPositions_of_contains hcont) ?_ ?_ ?_
        · intro a ha
          rw [hget1] at ha
          by_cases hanb : a = nb
          · rw [if_pos hanb] at ha
            exact absurd ha (by simp)
          · rwa [if_neg hanb] at ha
        · rw [hnone]; rfl
        · rw [hget1, if_pos rfl]; rfl
      rw [List.length_append]
      simp only [List.length_cons, List.length_nil]
      omega
    · rw [if_neg hnb]
      have hsome : (m.get_distance nb start).isSome := by
        cases hv : m.get_distance nb start with
        | none => exact absurd (by rw [hv]; rfl) hnb
        | some k => rfl
      have midNext : FFMid M g start h0 c rest m q := by
        refine ⟨mid.geomWidth, mid.geomHeight, mid.geomWalls, mid.hSet,
          mid.queueOK, mid.exactDist, ?_, ?_, mid.layered, mid.threshC⟩
        · intro p hp
          rcases mid.closedOK p hp with hq | hsucc | ⟨hph, hdirs⟩
          · exact Or.inl hq
          · exact Or.inr (Or.inl hsucc)
          · refine Or.inr (Or.inr ⟨hph, ?_⟩)
            intro d hd
            rcases hdirs d hd with hs | hmem
            · exact Or.inl hs
            · rcases List.mem_cons.mp hmem with heq | hrest
              · exact Or.inl (heq ▸ hsome)
              · exact Or.inr hrest
        · intro r hr
          exact mid.remIn r (by simp [hr])
      exact ih m q midNext

/-- With fully processed distances (every set cell has all its successors
set), every reachable position is set. -/
theorem ffAllSet (M : Maze) (g : Pos) (start : Bool) (m : Maze) (c : Nat)
    (hclosed : ∀ p, (m.get_distance p start).isSome → ∀ d, M.openStep p d = true →
      (m.get_distance (d.add_to_position p) start).isSome)
    (hthreshC : ∀ p n, IsTrueDist M g p n → n ≤ c →
      (m.get_distance p start).isSome) :
    ∀ n p, IsTrueDist M g p n → (m.get_distance p start).isSome := by
  intro n
  induction n using Nat.strong_induction_on with
  | _ n ih =>
    intro p hist
    rcases le_or_lt n c with hle | hgt
    · exact hthreshC p n hist hle
    · match n, hgt with
      | n' + 1, _ =>
        obtain ⟨q0, d, hist0, hopen, hstep⟩ := hist.pred
        have hs0 := ih n' (Nat.lt_succ_self n') q0 hist0
        have := hclosed q0 hs0 d hopen
        rwa [hstep] at this

/-- After the last neighbour is processed, the mid-loop invariant gives back
the main loop invariant. -/
theorem FFMid.toInv {M : Maze} {g : Pos} {start : Bool} {h0 : Pos} {c : Nat}
    {m : Maze} {q : List Pos} (mid : FFMid M g start h0 c [] m q) :
    FFInv M g start m q := by
  have hclosed2 : ∀ p, (m.get_distance p start).isSome → p ∈ q ∨
      ∀ d, M.openStep p d = true →
        (m.get_distance (d.add_to_position p) start).isSome := by
    intro p hp
    rcases mid.closedOK p hp with hq | hsucc | ⟨hph0, hdirs⟩
    · exact Or.inl hq
    · exact Or.inr hsucc
    · subst hph0
      refine Or.inr fun d hd => ?_
      rcases hdirs d hd with hs | hmem
      · exact hs
      · exact absurd hmem (List.not_mem_nil _)
  refine ⟨mid.geomWidth, mid.geomHeight, mid.geomWalls, mid.queueOK,
    mid.exactDist, hclosed2, ⟨c, mid.layered⟩, ?_⟩
  intro p n hist hhead
  match q, hclosed2, mid.layered, mid.queueOK, hhead with
  | [], hclosed2, _, _, _ =>
    exact ffAllSet M g start m c
      (fun r hr d hd => (hclosed2 r hr).resolve_left (List.not_mem_nil r) d hd)
      mid.threshC n p hist
  | hd :: tl, hclosed2, ⟨q1, q2, hsplit, h1, h2⟩, queueOK, hhead =>
    obtain ⟨c', hc', hnc'⟩ := hhead hd tl rfl
    cases q1 with
    | cons a q1t =>
      have ha : hd = a ∧ tl = q1t ++ q2 := by
        rw [List.cons_append] at hsplit
        exact ⟨(List.cons.injEq _ _ _ _ ▸ hsplit).1, (List.cons.injEq _ _ _ _ ▸ hsplit).2⟩
      have : m.get_distance hd start = some c := ha.1 ▸ h1 a (by simp)
      rw [this] at hc'
      cases hc'
      exact mid.threshC p n hist hnc'
    | nil =>
      rw [List.nil_append] at hsplit
      have hq2 : m.get_distance hd start = some (c + 1) := h2 hd (by rw [← hsplit]; simp)
      rw [hq2] at hc'
      cases hc'
      rcases le_or_lt n c with hle | hgt
      · exact mid.threshC p n hist hle
      · have hn1 : n = c + 1 := by omega
        subst hn1
        obtain ⟨q0, d, hist0, hopen, hstep⟩ := hist.pred
        have hs0 := mid.threshC q0 c hist0 (Nat.le_refl c)
        obtain ⟨k, hk⟩ := Option.isSome_iff_exists.mp hs0
        have hkc : k = c := (mid.exactDist q0 k hk).unique hist0
        rcases hclosed2 q0 hs0 with hmem | hsucc
        · exfalso
          have : m.get_distance q0 start = some (c + 1) := h2 q0 (by rw [← hsplit]; exact hmem)
          rw [hk, hkc] at this
          have hcc := Option.some.inj this
          omega
        · have := hsucc d hopen
          rwa [hstep] at this

/-- One full iteration of the flood-fill loop body preserves the invariant
and strictly decreases the measure. -/
theorem ff_step_inv (M : Maze) (g : Pos) (start : Bool) (m : Maze) (h0 : Pos)
    (t : List Pos) (c : Nat) (inv : FFInv M g start m (h0 :: t))
    (hc : m.get_distance h0 start = some c) :
    FFInv M g start
        (ff_process start (c + 1) m
          ((m.get_reachable_neighbors h0).map MazeCell.position) t).1
        (ff_process start (c + 1) m
          ((m.get_reachable_neighbors h0).map MazeCell.position) t).2 ∧
      ffMeasure M start
          (ff_process start (c + 1) m
            ((m.get_reachable_neighbors h0).map MazeCell.position) t).1
          (ff_process start (c + 1) m
            ((m.get_reachable_neighbors h0).map MazeCell.position) t).2 <
        ffMeasure M start m (h0 :: t) := by
  have hopen_eq : ∀ p d, m.openStep p d = M.openStep p d :=
    Maze.openStep_congr inv.geomWidth inv.geomHeight inv.geomWalls
  have mid : FFMid M g start h0 c
      ((m.get_reachable_neighbors h0).map MazeCell.position) m t := by
    refine ⟨inv.geomWidth, inv.geomHeight, inv.geomWalls, hc, ?_, inv.exactDist,
      ?_, ?_, ?_, ?_⟩
    · intro p hp
      exact inv.queueOK p (by simp [hp])
    · intro p hp
      rcases inv.closedOK p hp with hq | hsucc
      · rcases List.mem_cons.mp hq with heq | ht
        · refine Or.inr (Or.inr ⟨heq, fun d hd => Or.inr ?_⟩)
          refine (Maze.mem_reachable_positions m h0 _).mpr ⟨d, ?_, rfl⟩
          rw [hopen_eq]
          exact hd
        · exact Or.inl ht
      · exact Or.inr (Or.inl hsucc)
    · intro r hr
      obtain ⟨d, hd, hrd⟩ := (Maze.mem_reachable_positions m h0 r).mp hr
      rw [hopen_eq] at hd
      exact ⟨d, hd, hrd⟩
    · obtain ⟨c0, q1, q2, hsplit, h1, h2⟩ := inv.layered
      cases q1 with
      | cons a q1t =>
        have ha : h0 = a ∧ t = q1t ++ q2 := by
          rw [List.cons_append] at hsplit
          exact ⟨(List.cons.injEq _ _ _ _ ▸ hsplit).1, (List.cons.injEq _ _ _ _ ▸ hsplit).2⟩
        have hc0 : m.get_distance h0 start = some c0 := ha.1 ▸ h1 a (by simp)
        rw [hc] at hc0
        cases hc0
        exact ⟨q1t, q2, ha.2, fun p hp => h1 p (by simp [hp]), h2⟩
      | nil =>
        rw [List.nil_append] at hsplit
        have hc0 : m.get_distance h0 start = some (c0 + 1) :=
          h2 h0 (by rw [← hsplit]; simp)
        rw [hc] at hc0
        cases hc0
        refine ⟨t, [], by simp, ?_, by simp⟩
        intro p hp
        exact h2 p (by rw [← hsplit]; simp [hp])
    · intro p n hist hn
      refine inv.thresh p n hist fun hd tl heq => ?_
      have : hd = h0 := (List.cons.injEq _ _ _ _ ▸ heq.symm).1
      exact ⟨c, this ▸ hc, hn⟩
  obtain ⟨midFin, hmeas⟩ := ff_process_mid M g start h0 c
    ((m.get_reachable_neighbors h0).map MazeCell.position) m t mid
  refine ⟨midFin.toInv, ?_⟩
  have : ffMeasure M start m (h0 :: t) = ffMeasure M start m t + 1 := by
    unfold ffMeasure
    rw [List.length_cons]
    omega
  omega

/-- Master lemma for the flood-fill loop: from any state satisfying the
invariant, enough fuel drives the loop to completion with the invariant
holding at an empty queue. -/
theorem ff_loop_master (M : Maze) (g : Pos) (start : Bool) :
    ∀ (fuel : Nat) (m : Maze) (q : List Pos), FFInv M g start m q →
      ffMeasure M start m q < fuel →
      ∃ m', ff_loop start fuel m q = some m' ∧ FFInv M g start m' [] := by
  intro fuel
  induction fuel with
  | zero => intro m q _ hmeas; omega
  | succ fuel ih =>
    intro m q inv hmeas
    match q with
    | [] => exact ⟨m, by rw [ff_loop], inv⟩
    | h0 :: t =>
      obtain ⟨-, hsome⟩ := inv.queueOK h0 (by simp)
      obtain ⟨c, hc⟩ := Option.isSome_iff_exists.mp hsome
      obtain ⟨inv2, hdec⟩ := ff_step_inv M g start m h0 t c inv hc
      obtain ⟨m', hm', hinv'⟩ := ih _ _ inv2 (by omega)
      refine ⟨m', ?_, hinv'⟩
      rw [ff_loop, hc]
      exact hm'

/-- The state just before the loop starts (all selected distances cleared,
the goal cell set to 0, queue containing only the goal) satisfies the
invariant. -/
theorem ff_init_inv (M : Maze) (g : Pos) (start : Bool)
    (hg : M.contains g = true) :
    FFInv M g start ((M.ff_reset start).set_distance g (some 0) start) [g] := by
  set m1 := (M.ff_reset start).set_distance g (some 0) start with hm1
  have hget : ∀ r, m1.get_distance r start = if r = g then some 0 else none := by
    intro r
    rw [hm1, Maze.get_distance_set_distance]
    by_cases hr : r = g
    · rw [if_pos hr, if_pos hr]
    · rw [if_neg hr, if_neg hr, Maze.get_distance_ff_reset]
  have hframe := (Maze.ff_reset_frame M start).trans
    (Maze.set_distance_frame (M.ff_reset start) g (some 0) start)
  refine ⟨hframe.1, hframe.2.1, hframe.2.2.1, ?_, ?_, ?_, ?_, ?_⟩
  · intro p hp
    have : p = g := by simpa using hp
    subst this
    exact ⟨hg, by rw [hget, if_pos rfl]; rfl⟩
  · intro p k hk
    rw [hget] at hk
    by_cases hp : p = g
    · rw [if_pos hp] at hk
      cases hk
      exact hp ▸ isTrueDist_self M g
    · rw [if_neg hp] at hk
      exact Option.noConfusion hk
  · intro p hp
    rw [hget] at hp
    by_cases hpg : p = g
    · exact Or.inl (by simp [hpg])
    · rw [if_neg hpg] at hp
      exact absurd hp (by simp)
  · exact ⟨0, [g], [], by simp, fun p hp => by
      have : p = g := by simpa using hp
      rw [hget, if_pos this], by simp⟩
  · intro p n hist hhead
    obtain ⟨c, hcg, hnc⟩ := hhead g [] rfl
    rw [hget, if_pos rfl] at hcg
    cases hcg
    have hn0 : n = 0 := by omega
    subst hn0
    have : p = g := hist.eq_of_zero
    rw [hget, if_pos this]
    rfl

/-- C2: for any maze and any in-bounds target, the flood fill terminates and
afterwards the selected distance field of every position reachable from the
target equals the true shortest hop-count, while every unreachable
position's field is unknown. -/
theorem flood_fill_computes_shortest_distances (M : Maze) (g : Pos)
    (start : Bool) (hg : M.contains g = true) :
    ∃ m', M.update_flood_fill_distances g start = some m' ∧
      ∀ p, (Reachable M g p →
          ∃ k, m'.get_distance p start = some k ∧ IsTrueDist M g p k) ∧
        (¬Reachable M g p → m'.get_distance p start = none) := by
  have hinit := ff_init_inv M g start hg
  have hmeas : ffMeasure M start
      ((M.ff_reset start).set_distance g (some 0) start) [g] < M.ff_fuel := by
    unfold ffMeasure Maze.ff_fuel
    have hcnt : ffNoneCount M start ((M.ff_reset start).set_distance g (some 0) start) ≤
        M.width.toNat * M.height.toNat := by
      unfold ffNoneCount
      exact le_trans (List.countP_le_length _) (le_of_eq (gridPositions_length M))
    simp only [List.length_cons, List.length_nil]
    omega
  obtain ⟨m', hm', hinv⟩ := ff_loop_master M g start M.ff_fuel _ [g] hinit hmeas
  refine ⟨m', ?_, ?_⟩
  · unfold Maze.update_flood_fill_distances
    rw [if_pos hg]
    exact hm'
  · intro p
    constructor
    · intro hreach
      obtain ⟨n, hn⟩ := hreach.exists_true_dist
      have := hinv.thresh p n hn (fun hd tl heq => List.noConfusion heq)
      obtain ⟨k, hk⟩ := Option.isSome_iff_exists.mp this
      exact ⟨k, hk, hinv.exactDist p k hk⟩
    · intro hunreach
      cases hv : m'.get_distance p start with
      | none => rfl
      | some k =>
        exact absurd ⟨k, (hinv.exactDist p k hv).1⟩ hunreach

/-- Witness for C2: concrete instantiation on the 2 by 2 starter maze with
the goal in the corner. -/
theorem flood_fill_computes_shortest_distances_witness :
    (Maze.init 2 2).contains (0, 0) = true ∧
      ∃ m', (Maze.init 2 2).update_flood_fill_distances (0, 0) false = some m' ∧
        ∀ p, (Reachable (Maze.init 2 2) (0, 0) p →
            ∃ k, m'.get_distance p false = some k ∧
              IsTrueDist (Maze.init 2 2) (0, 0) p k) ∧
          (¬Reachable (Maze.init 2 2) (0, 0) p → m'.get_distance p false = none) :=
  ⟨by decide,
    flood_fill_computes_shortest_distances (Maze.init 2 2) (0, 0) false (by decide)⟩

/-- External wall sensor oracle: `World pos d` is what the simulator
reports for the wall on side `d` of the cell at `pos` (`API.wallFront`
queries it at the current pose's heading, `API.wallLeft` and
`API.wallRight` at the rotated headings). -/
def World : Type := Pos → Direction → Bool

/-- The controller state of `Mouse.__init__`: tracked pose, the maze model,
the current cell reference, the visited set (a Python `set` of cells,
modelled as the list of its insertions) and the exploration-mode flag. -/
structure Mouse : Type where
  position : Pos
  direction : Direction
  maze : Maze
  cell : MazeCell
  visited : List MazeCell
  updating_distances : Bool

/-- `Mouse.get_front`. -/
def Mouse.get_front (ms : Mouse) : Pos := ms.direction.add_to_position ms.position

/-- `Mouse.get_left`. -/
def Mouse.get_left (ms : Mouse) : Pos :=
  ms.direction.minus_90.add_to_position ms.position

/-- `Mouse.get_right`. -/
def Mouse.get_right (ms : Mouse) : Pos :=
  ms.direction.plus_90.add_to_position ms.position

/-- `Mouse.get_back`. -/
def Mouse.get_back (ms : Mouse) : Pos :=
  ms.direction.minus_180.add_to_position ms.position

/-- `Mouse.turn_left` (the `API.turnLeft` call is external). -/
def Mouse.turn_left (ms : Mouse) : Mouse :=
  { ms with direction := ms.direction.minus_90 }

/-- `Mouse.turn_around()` with the default `left=True`: two left turns. -/
def Mouse.turn_around (ms : Mouse) : Mouse := ms.turn_left.turn_left

/-- Error outcomes of `Mouse.move_forward`:
`pathBlocked` models `PathBlockedException`; `indexError` models the
`IndexError` that `Maze.get_cell` raises when the next position is outside
the grid; `attributeError` models the `AttributeError` raised by
`self.cell.set_distance_is_confirmed(True)`, a method that does not exist
on `MazeCell` (the class defines `set_confirmed_distance`). -/
inductive MoveErr : Type where
  | pathBlocked : MoveErr
  | indexError : MoveErr
  | attributeError : MoveErr
deriving DecidableEq, Repr

/-- The per-step body of the `for _ in range(distance):` loop in
`Mouse.move_forward`: advance the tracked position one cell in the current
heading, re-resolve the current cell, add it to the visited set, and — in
exploration mode — attempt the confirmation call, which raises an
`AttributeError` because `MazeCell` has no `set_distance_is_confirmed`
method. -/
def Mouse.move_forward_steps (ms : Mouse) : Nat → Except MoveErr Mouse
  | 0 => .ok ms
  | n + 1 =>
    let pos2 := ms.direction.add_to_position ms.position
    if ms.maze.contains pos2 then
      let cell2 := ms.maze.get_cell pos2
      let ms2 := { ms with position := pos2, cell := cell2, visited := cell2 :: ms.visited }
      if ms2.updating_distances then .error .attributeError
      else ms2.move_forward_steps n
    else .error .indexError

/-- `Mouse.move_forward(distance)`: raise `PathBlockedException` when the
front sensor reports a wall (unless building that exception itself fails
with `IndexError` because the front cell is outside the grid), otherwise
perform the unit steps.  The physical `API.moveForward` call is external. -/
def Mouse.move_forward (ms : Mouse) (w : World) (distance : Nat) :
    Except MoveErr Mouse :=
  if w ms.position ms.direction then
    if ms.maze.contains (ms.direction.add_to_position ms.position) then
      .error .pathBlocked
    else .error .indexError
  else
    ms.move_forward_steps distance

/-- Concrete mouse used for the `move_forward` evidence: at the origin of a
1 by 3 maze, facing north. -/
def mouseAtOrigin (upd : Bool) : Mouse :=
  { position := (0, 0)
    direction := .NORTH
    maze := Maze.init 1 3
    cell := (Maze.init 1 3).get_cell (0, 0)
    visited := []
    updating_distances := upd }

/-- C7 (code evidence): with no wall sensed ahead and exploration mode on,
`move_forward(1)` raises `AttributeError` instead of confirming the cell,
because it calls the nonexistent `MazeCell.set_distance_is_confirmed`; with
a wall sensed ahead it raises the blocked-path error; with exploration mode
off the move succeeds and performs exactly the tracked-pose bookkeeping. -/
theorem move_forward_confirmation_is_attribute_error :
    (mouseAtOrigin true).move_forward (fun _ _ => false) 1 =
        .error .attributeError ∧
      (mouseAtOrigin true).move_forward (fun _ _ => true) 1 =
        .error .pathBlocked ∧
      (mouseAtOrigin false).move_forward (fun _ _ => false) 2 =
        .ok { position := (0, 2)
              direction := .NORTH
              maze := Maze.init 1 3
              cell := (Maze.init 1 3).get_cell (0, 2)
              visited := [(Maze.init 1 3).get_cell (0, 2),
                (Maze.init 1 3).get_cell (0, 1)]
              updating_distances := false } :=
  ⟨rfl, rfl, rfl⟩

/-- Two left turns rotate the heading by 180 degrees. -/
theorem Direction.minus_90_minus_90 (d : Direction) :
    d.minus_90.minus_90 = d.minus_180 := by
  cases d <;> decide

/-- The front, left and right candidates gathered by
`Mouse.get_reachable_neighbors` before any fallback: for each of the three
sensor checks, the neighbour cell if no wall is sensed there and it is in
bounds. -/
def Mouse.flr_candidates (ms : Mouse) (w : World) : List MazeCell :=
  (if !(w ms.position ms.direction) && ms.maze.contains ms.get_front then
      [ms.maze.get_cell ms.get_front] else []) ++
    (if !(w ms.position ms.direction.minus_90) && ms.maze.contains ms.get_left then
      [ms.maze.get_cell ms.get_left] else []) ++
    (if !(w ms.position ms.direction.plus_90) && ms.maze.contains ms.get_right then
      [ms.maze.get_cell ms.get_right] else [])

/-- `Mouse.get_reachable_neighbors`: gather the front/left/right candidates;
if none is available, turn around (a state change!) and re-check only the
new front.  Returns the candidate list together with the possibly turned
mouse. -/
def Mouse.get_reachable_neighbors (ms : Mouse) (w : World) :
    List MazeCell × Mouse :=
  let neighbors := ms.flr_candidates w
  if neighbors = [] then
    let ms2 := ms.turn_around
    (if !(w ms2.position ms2.direction) && ms2.maze.contains ms2.get_front then
        [ms2.maze.get_cell ms2.get_front] else [],
      ms2)
  else (neighbors, ms)

/-- The rear escape check: no wall sensed behind and the rear cell in
bounds. -/
def Mouse.rear_open (ms : Mouse) (w : World) : Bool :=
  !(w ms.position ms.direction.minus_180) && ms.maze.contains ms.get_back

/-- C8: `get_reachable_neighbors` returns the in-bounds wall-free cells
among front, left and right with the pose unchanged; when all three are
blocked or out of bounds it turns the mouse by 180 degrees and re-checks
only the new front, yielding exactly the rear cell when the rear is open
and the empty list when the rear is blocked too. -/
theorem mouse_reachable_neighbors_spec (ms : Mouse) (w : World) :
    (ms.flr_candidates w ≠ [] →
      ms.get_reachable_neighbors w = (ms.flr_candidates w, ms)) ∧
    (ms.flr_candidates w = [] →
      (ms.get_reachable_neighbors w).2.direction = ms.direction.minus_180 ∧
      (ms.get_reachable_neighbors w).2.position = ms.position ∧
      (ms.rear_open w = true →
        (ms.get_reachable_neighbors w).1 = [ms.maze.get_cell ms.get_back]) ∧
      (ms.rear_open w = false → (ms.get_reachable_neighbors w).1 = [])) := by
  constructor
  · intro hne
    unfold Mouse.get_reachable_neighbors
    rw [if_neg hne]
  · intro hemp
    have hdir : ms.turn_around.direction = ms.direction.minus_180 :=
      Direction.minus_90_minus_90 ms.direction
    have hfront : ms.turn_around.get_front = ms.get_back := by
      unfold Mouse.get_front Mouse.get_back
      rw [show ms.turn_around.direction = ms.direction.minus_180 from hdir]
      rfl
    have hcond : (!(w ms.turn_around.position ms.turn_around.direction) &&
        ms.turn_around.maze.contains ms.turn_around.get_front) = ms.rear_open w := by
      unfold Mouse.rear_open
      rw [hfront, hdir]
      rfl
    unfold Mouse.get_reachable_neighbors
    rw [if_pos hemp]
    refine ⟨hdir, rfl, ?_, ?_⟩
    · intro hro
      show (if (!(w ms.turn_around.position ms.turn_around.direction) &&
          ms.turn_around.maze.contains ms.turn_around.get_front) = true then
          [ms.turn_around.maze.get_cell ms.turn_around.get_front] else []) =
        [ms.maze.get_cell ms.get_back]
      rw [hcond, hro, if_pos rfl, hfront]
      rfl
    · intro hro
      show (if (!(w ms.turn_around.position ms.turn_around.direction) &&
          ms.turn_around.maze.contains ms.turn_around.get_front) = true then
          [ms.turn_around.maze.get_cell ms.turn_around.get_front] else []) =
        ([] : List MazeCell)
      rw [hcond, hro]
      rfl

/-- Concrete boxed-in mouse for the C8 witness: in a 1 by 2 maze at the top
cell facing north, front, left and right are out of bounds and only the
rear cell is available after the turn-around. -/
def boxedMouse : Mouse :=
  { position := (0, 1)
    direction := .NORTH
    maze := Maze.init 1 2
    cell := (Maze.init 1 2).get_cell (0, 1)
    visited := []
    updating_distances := true }

/-- Witness for C8: the boxed-in mouse gets exactly the rear cell, with its
heading flipped south. -/
theorem mouse_reachable_neighbors_spec_witness :
    boxedMouse.flr_candidates (fun _ _ => false) = [] ∧
      (boxedMouse.get_reachable_neighbors (fun _ _ => false)).2.direction =
        Direction.SOUTH ∧
      (boxedMouse.get_reachable_neighbors (fun _ _ => false)).1 =
        [(Maze.init 1 2).get_cell (0, 0)] := by
  have h := (mouse_reachable_neighbors_spec boxedMouse fun _ _ => false).2 (by decide)
  exact ⟨by decide, h.1, h.2.2.1 (by decide)⟩

/-- The data shown by `MazeCell.__repr__` (position, wall flags, goal
distance).  `MazeCell.__hash__` is `hash(repr(self))`, so two cells hash
alike exactly when this key agrees (Python string hashing is modelled as
collision-free). -/
def MazeCell.reprKey (c : MazeCell) : Pos × Walls × Option Nat :=
  (c.position, c.walls, c.distance_to_goal)

/-- `MazeCell.__eq__`: equality is decided solely by `distance_to_goal`. -/
def MazeCell.pyEq (a b : MazeCell) : Bool :=
  decide (a.distance_to_goal = b.distance_to_goal)

/-- Membership in a Python `set` of `MazeCell`s: the lookup first locates
the hash bucket — `hash(repr(cell))`, i.e. the `reprKey` — and only then
applies `__eq__`; both must match. -/
def pySetMem (x : MazeCell) (s : List MazeCell) : Bool :=
  s.any fun y => decide (y.reprKey = x.reprKey) && y.pyEq x

/-- `Mouse.get_turns`: number of 90-degree turns needed to face the given
neighbour; `none` models the `AttributeError` raised when the cell is not
adjacent (then `desired_direction` stays `None` and `.value` fails). -/
def Mouse.get_turns (ms : Mouse) (neighbor : MazeCell) : Option Nat :=
  match (if neighbor.position = ms.get_front then some ms.direction
    else if neighbor.position = ms.get_left then some ms.direction.minus_90
    else if neighbor.position = ms.get_right then some ms.direction.plus_90
    else if neighbor.position = ms.get_back then some ms.direction.minus_180
    else none) with
  | none => none
  | some desired_direction =>
    some (min ((desired_direction.value - ms.direction.value).emod 4).toNat
      (4 - (desired_direction.value - ms.direction.value).emod 4).toNat)

/-- The `heuristic` closure inside `Mouse.get_best_candidate`: the ranking
tuple (goal distance, visited flag, turns). -/
def Mouse.heuristic (ms : Mouse) (neighbor : MazeCell) :
    Option Nat × Nat × Option Nat :=
  (neighbor.distance_to_goal,
    if pySetMem neighbor ms.visited then 1 else 0,
    ms.get_turns neighbor)

/-- Python `<` between optional ints: comparisons involving `None` raise
`TypeError`; that branch is modelled as `false` and is unreachable under
the hypotheses of the theorems that use it. -/
def optNatLt (a b : Option Nat) : Bool :=
  match a, b with
  | some x, some y => decide (x < y)
  | _, _ => none = a ∧ false = true

/-- Python tuple `<` on heuristic keys: the first component where the two
tuples differ under `==` decides via `<`; equal tuples are not below each
other. -/
def pyKeyLt (a b : Option Nat × Nat × Option Nat) : Bool :=
  if a.1 = b.1 then
    if a.2.1 = b.2.1 then
      if a.2.2 = b.2.2 then false
      else optNatLt a.2.2 b.2.2
    else decide (a.2.1 < b.2.1)
  else optNatLt a.1 b.1

/-- `min(iterable, key=heuristic)`: fold that keeps the earliest element
whose key is strictly smaller than the best so far. -/
def pyMinBy (key : MazeCell → Option Nat × Nat × Option Nat) :
    MazeCell → List MazeCell → MazeCell
  | best, [] => best
  | best, x :: rest =>
    if pyKeyLt (key x) (key best) then pyMinBy key x rest
    else pyMinBy key best rest

/-- `Mouse.get_best_candidate`: `min` over the neighbour list; `none`
models the `ValueError` that `min` raises on an empty sequence. -/
def Mouse.get_best_candidate (ms : Mouse)
    (reachable_neighbors : List MazeCell) : Option MazeCell :=
  match reachable_neighbors with
  | [] => none
  | x :: rest => some (pyMinBy ms.heuristic x rest)

/-- The ranking key of the specification with both optional components
present (they are, under the hypotheses in which the heuristic runs). -/
def specKey (ms : Mouse) (nb : MazeCell) : Nat × Nat × Nat :=
  ((nb.distance_to_goal).getD 0,
    if pySetMem nb ms.visited then 1 else 0,
    (ms.get_turns nb).getD 0)

/-- Strict lexicographic order on the ranking key. -/
def lex3Lt (a b : Nat × Nat × Nat) : Prop :=
  a.1 < b.1 ∨ (a.1 = b.1 ∧ (a.2.1 < b.2.1 ∨ (a.2.1 = b.2.1 ∧ a.2.2 < b.2.2)))

/-- Lexicographic order on the ranking key. -/
def lex3Le (a b : Nat × Nat × Nat) : Prop := lex3Lt a b ∨ a = b

theorem lex3Le_of_not_lt {a b : Nat × Nat × Nat} (h : ¬lex3Lt a b) :
    lex3Le b a := by
  obtain ⟨a1, a2, a3⟩ := a
  obtain ⟨b1, b2, b3⟩ := b
  unfold lex3Lt at h
  unfold lex3Le lex3Lt
  simp only [Prod.mk.injEq] at h ⊢
  omega

theorem lex3Le_trans {a b c : Nat × Nat × Nat} (h1 : lex3Le a b)
    (h2 : lex3Le b c) : lex3Le a c := by
  obtain ⟨a1, a2, a3⟩ := a
  obtain ⟨b1, b2, b3⟩ := b
  obtain ⟨c1, c2, c3⟩ := c
  unfold lex3Le lex3Lt at h1 h2 ⊢
  simp only [Prod.mk.injEq] at h1 h2 ⊢
  omega

theorem lex3Le_refl (a : Nat × Nat × Nat) : lex3Le a a := Or.inr rfl

theorem lex3Le_of_lt {a b : Nat × Nat × Nat} (h : lex3Lt a b) : lex3Le a b :=
  Or.inl h

/-- On keys whose optional components are present, the Python tuple
comparison agrees with the strict lexicographic order on the spec key. -/
theorem pyKeyLt_iff_lex3Lt (ms : Mouse) (a b : MazeCell)
    (hda : (a.distance_to_goal).isSome) (hta : (ms.get_turns a).isSome)
    (hdb : (b.distance_to_goal).isSome) (htb : (ms.get_turns b).isSome) :
    pyKeyLt (ms.heuristic a) (ms.heuristic b) = true ↔
      lex3Lt (specKey ms a) (specKey ms b) := by
  obtain ⟨da, hda'⟩ := Option.isSome_iff_exists.mp hda
  obtain ⟨ta, hta'⟩ := Option.isSome_iff_exists.mp hta
  obtain ⟨db, hdb'⟩ := Option.isSome_iff_exists.mp hdb
  obtain ⟨tb, htb'⟩ := Option.isSome_iff_exists.mp htb
  set va : Nat := if pySetMem a ms.visited then 1 else 0 with hva
  set vb : Nat := if pySetMem b ms.visited then 1 else 0 with hvb
  unfold pyKeyLt Mouse.heuristic specKey optNatLt lex3Lt
  rw [hda', hdb', hta', htb']
  dsimp only
  rw [← hva, ← hvb]
  by_cases h1 : da = db
  · rw [if_pos (by rw [h1])]
    by_cases h2 : va = vb
    · rw [if_pos h2]
      by_cases h3 : ta = tb
      · rw [if_pos (by rw [h3]), h1, h2, h3]
        simp
      · rw [if_neg fun hc => h3 (Option.some.inj hc)]
        simp [h1, h2, h3]
    · rw [if_neg h2]
      simp [h1, h2]
  · rw [if_neg fun hc => h1 (Option.some.inj hc)]
    simp [h1]

/-- The fold behind `min(..., key=heuristic)` returns a listed element whose
spec key is lexicographically least. -/
theorem pyMinBy_spec (ms : Mouse) :
    ∀ (rest : List MazeCell) (best : MazeCell),
      (∀ nb ∈ best :: rest,
        (nb.distance_to_goal).isSome ∧ (ms.get_turns nb).isSome) →
      pyMinBy ms.heuristic best rest ∈ best :: rest ∧
        ∀ nb ∈ best :: rest,
          lex3Le (specKey ms (pyMinBy ms.heuristic best rest)) (specKey ms nb) := by
  intro rest
  induction rest with
  | nil =>
    intro best _
    refine ⟨by simp [pyMinBy], ?_⟩
    intro nb hnb
    have hb : nb = best := by simpa using hnb
    rw [hb]
    exact lex3Le_refl _
  | cons x rest ih =>
    intro best hkeys
    have hbest := hkeys best (by simp)
    have hx := hkeys x (by simp)
    by_cases hlt : pyKeyLt (ms.heuristic x) (ms.heuristic best) = true
    · have hstep : pyMinBy ms.heuristic best (x :: rest) =
          pyMinBy ms.heuristic x rest := by
        rw [pyMinBy, if_pos hlt]
      obtain ⟨hmem, hmin⟩ := ih x fun nb hnb => hkeys nb (by
        rcases List.mem_cons.mp hnb with h | h
        · rw [h]
          exact List.mem_cons_of_mem best (List.mem_cons_self x rest)
        · exact List.mem_cons_of_mem best (List.mem_cons_of_mem x h))
      rw [hstep]
      have hxb : lex3Lt (specKey ms x) (specKey ms best) :=
        (pyKeyLt_iff_lex3Lt ms x best hx.1 hx.2 hbest.1 hbest.2).mp hlt
      refine ⟨?_, ?_⟩
      · rcases List.mem_cons.mp hmem with h | h
        · rw [h]
          exact List.mem_cons_of_mem best (List.mem_cons_self x rest)
        · exact List.mem_cons_of_mem best (List.mem_cons_of_mem x h)
      · intro nb hnb
        rcases List.mem_cons.mp hnb with h | h
        · rw [h]
          exact lex3Le_trans (hmin x (by simp)) (lex3Le_of_lt hxb)
        · rcases List.mem_cons.mp h with h2 | h2
          · rw [h2]
            exact hmin x (by simp)
          · exact hmin nb (List.mem_cons_of_mem x h2)
    · have hstep : pyMinBy ms.heuristic best (x :: rest) =
          pyMinBy ms.heuristic best rest := by
        rw [pyMinBy, if_neg hlt]
      obtain ⟨hmem, hmin⟩ := ih best fun nb hnb => hkeys nb (by
        rcases List.mem_cons.mp hnb with h | h
        · rw [h]
          exact List.mem_cons_self best (x :: rest)
        · exact List.mem_cons_of_mem best (List.mem_cons_of_mem x h))
      rw [hstep]
      have hbx : lex3Le (specKey ms best) (specKey ms x) := by
        refine lex3Le_of_not_lt fun hc => hlt ?_
        exact (pyKeyLt_iff_lex3Lt ms x best hx.1 hx.2 hbest.1 hbest.2).mpr hc
      refine ⟨?_, ?_⟩
      · rcases List.mem_cons.mp hmem with h | h
        · rw [h]
          exact List.mem_cons_self best (x :: rest)
        · exact List.mem_cons_of_mem best (List.mem_cons_of_mem x h)
      · intro nb hnb
        rcases List.mem_cons.mp hnb with h | h
        · rw [h]
          exact hmin best (by simp)
        · rcases List.mem_cons.mp h with h2 | h2
          · rw [h2]
            exact lex3Le_trans (hmin best (by simp)) hbx
          · exact hmin nb (List.mem_cons_of_mem best h2)

/-- The headings toward the four adjacent cells are pairwise distinct, so
`get_turns` resolves each relative position unambiguously. -/
theorem Direction.rotations_ne (d : Direction) :
    d.minus_90 ≠ d ∧ d.plus_90 ≠ d ∧ d.minus_180 ≠ d ∧
      d.plus_90 ≠ d.minus_90 ∧ d.minus_180 ≠ d.minus_90 ∧
      d.minus_180 ≠ d.plus_90 := by
  cases d <;> exact ⟨by decide, by decide, by decide, by decide, by decide, by decide⟩

/-- Turn counts by relative position: straight ahead 0, left or right 1,
reverse 2. -/
theorem mouse_get_turns_table (ms : Mouse) (nb : MazeCell) :
    (nb.position = ms.get_front → ms.get_turns nb = some 0) ∧
      (nb.position = ms.get_left → ms.get_turns nb = some 1) ∧
      (nb.position = ms.get_right → ms.get_turns nb = some 1) ∧
      (nb.position = ms.get_back → ms.get_turns nb = some 2) := by
  have hrot := Direction.rotations_ne ms.direction
  have hne : ∀ d e : Direction, d ≠ e →
      d.add_to_position ms.position ≠ e.add_to_position ms.position :=
    fun d e hde hc => hde (Direction.add_to_position_dir_inj ms.position hc)
  refine ⟨?_, ?_, ?_, ?_⟩
  · intro h
    unfold Mouse.get_turns
    rw [if_pos h]
    cases ms.direction <;> rfl
  · intro h
    unfold Mouse.get_turns
    rw [if_neg (by rw [h]; exact hne _ _ hrot.1), if_pos h]
    cases ms.direction <;> rfl
  · intro h
    unfold Mouse.get_turns
    rw [if_neg (by rw [h]; exact hne _ _ hrot.2.1),
      if_neg (by rw [h]; exact hne _ _ hrot.2.2.2.1), if_pos h]
    cases ms.direction <;> rfl
  · intro h
    unfold Mouse.get_turns
    rw [if_neg (by rw [h]; exact hne _ _ hrot.2.2.1),
      if_neg (by rw [h]; exact hne _ _ hrot.2.2.2.2.1),
      if_neg (by rw [h]; exact hne _ _ hrot.2.2.2.2.2), if_pos h]
    cases ms.direction <;> rfl

/-- C6: on a non-empty neighbour list whose entries all carry a goal
distance and are adjacent (so the turn count resolves), the candidate
selection returns exactly a listed element that is minimal under the
lexicographic key (goal distance, visited flag with unvisited first, turn
count with 0 straight ahead and 2 reverse); on the empty list it signals
the `min`-over-empty error. -/
theorem get_best_candidate_spec (ms : Mouse) (neighbors : List MazeCell)
    (hne : neighbors ≠ [])
    (hkeys : ∀ nb ∈ neighbors,
      (nb.distance_to_goal).isSome ∧ (ms.get_turns nb).isSome) :
    (∃ r, ms.get_best_candidate neighbors = some r ∧ r ∈ neighbors ∧
        ∀ nb ∈ neighbors, lex3Le (specKey ms r) (specKey ms nb)) ∧
      ms.get_best_candidate [] = none ∧
      (∀ nb : MazeCell,
        (nb.position = ms.get_front → ms.get_turns nb = some 0) ∧
          (nb.position = ms.get_back → ms.get_turns nb = some 2)) := by
  refine ⟨?_, rfl, fun nb =>
    ⟨(mouse_get_turns_table ms nb).1, (mouse_get_turns_table ms nb).2.2.2⟩⟩
  match neighbors, hne with
  | x :: rest, _ =>
    obtain ⟨hmem, hmin⟩ := pyMinBy_spec ms rest x hkeys
    exact ⟨pyMinBy ms.heuristic x rest, rfl, hmem, hmin⟩

/-- Concrete mouse for the C6 witness: two adjacent candidate cells with
distinct goal distances; the nearer one is picked. -/
def choiceMouse : Mouse :=
  { position := (1, 1)
    direction := .NORTH
    maze := Maze.init 3 3
    cell := (Maze.init 3 3).get_cell (1, 1)
    visited := []
    updating_distances := true }

/-- The two candidate cells offered to `choiceMouse`: ahead at distance 2,
to the right at distance 1. -/
def choiceCells : List MazeCell :=
  [{ position := (1, 2)
     walls := { north := false, east := false, south := false, west := false }
     distance_to_goal := some 2
     distance_to_start := none
     confirmed_distance := true },
   { position := (2, 1)
     walls := { north := false, east := false, south := false, west := false }
     distance_to_goal := some 1
     distance_to_start := none
     confirmed_distance := true }]

/-- Witness for C6: on the concrete candidate list the selection returns a
listed, key-minimal element. -/
theorem get_best_candidate_spec_witness :
    choiceCells ≠ [] ∧
      (∀ nb ∈ choiceCells,
        (nb.distance_to_goal).isSome ∧ (choiceMouse.get_turns nb).isSome) ∧
      ∃ r, choiceMouse.get_best_candidate choiceCells = some r ∧
        r ∈ choiceCells ∧
        ∀ nb ∈ choiceCells, lex3Le (specKey choiceMouse r) (specKey choiceMouse nb) := by
  refine ⟨by decide, by decide, ?_⟩
  exact (get_best_candidate_spec choiceMouse choiceCells (by decide) (by decide)).1

/-- Two cells at distinct positions sharing one goal distance. -/
def cellA : MazeCell :=
  { position := (0, 0)
    walls := { north := false, east := false, south := false, west := false }
    distance_to_goal := some 5
    distance_to_start := none
    confirmed_distance := true }

/-- Same data as `cellA` but at a different position. -/
def cellB : MazeCell :=
  { position := (1, 0)
    walls := { north := false, east := false, south := false, west := false }
    distance_to_goal := some 5
    distance_to_start := none
    confirmed_distance := true }

/-- C9 counterexample: `__eq__` does hold between two cells at distinct
positions with equal goal distances, but membership in a Python set of
cells does not identify them — `__hash__` covers the repr (position, walls,
distance), so `cellB in {cellA}` is false even though `cellB == cellA`. -/
theorem mazecell_set_membership_counterexample :
    cellA.position ≠ cellB.position ∧ cellA.pyEq cellB = true ∧
      cellB.pyEq cellA = true ∧ pySetMem cellB [cellA] = false := by
  refine ⟨by decide, by decide, by decide, by decide⟩

/-- C9 amended: `__eq__` compares exactly the `distance_to_goal` fields,
while membership in a one-element Python set of cells holds exactly when
the repr data (position, walls, goal distance) coincides — the hash bucket
must match before `__eq__` is ever consulted. -/
theorem mazecell_eq_and_set_membership :
    (∀ a b : MazeCell, a.pyEq b = true ↔
        a.distance_to_goal = b.distance_to_goal) ∧
      ∀ a b : MazeCell, pySetMem b [a] = true ↔ a.reprKey = b.reprKey := by
  constructor
  · intro a b
    unfold MazeCell.pyEq
    simp
  · intro a b
    simp only [pySetMem, List.any_cons, List.any_nil, Bool.or_false,
      Bool.and_eq_true, decide_eq_true_eq, MazeCell.pyEq]
    constructor
    · rintro ⟨h1, -⟩
      exact h1
    · intro h
      refine ⟨h, ?_⟩
      have h2 := congrArg (fun k : Pos × Walls × Option Nat => k.2.2) h
      simpa [MazeCell.reprKey] using h2

/-- `MazeCell.distance_is_confirmed`. -/
def MazeCell.distance_is_confirmed (c : MazeCell) : Bool := c.confirmed_distance

/-- Python `==` on lists of cells: equal lengths and elementwise
`MazeCell.__eq__`. -/
def pyListEqCells : List MazeCell → List MazeCell → Bool
  | [], [] => true
  | a :: t1, b :: t2 => a.pyEq b && pyListEqCells t1 t2
  | _, _ => false

/-- Python `<` on lists of cells: the first elementwise-`!=` position
decides via `MazeCell.__lt__` (which compares goal distances); if one list
is a prefix of the other, the shorter is smaller. -/
def pyListLtCells : List MazeCell → List MazeCell → Bool
  | [], [] => false
  | [], _ :: _ => true
  | _ :: _, [] => false
  | a :: t1, b :: t2 =>
    if a.pyEq b then pyListLtCells t1 t2
    else optNatLt a.distance_to_goal b.distance_to_goal

/-- A priority-queue entry of `find_fastest_path`: `(cost, cell, path)`. -/
abbrev HeapItem : Type := Nat × MazeCell × List MazeCell

/-- Python tuple `<` on heap entries: cost first, then the cell
(`MazeCell.__eq__` / `__lt__`), then the path list. -/
def pyItemLt (a b : HeapItem) : Bool :=
  if a.1 = b.1 then
    if (a.2.1).pyEq b.2.1 then pyListLtCells a.2.2 b.2.2
    else optNatLt (a.2.1).distance_to_goal (b.2.1).distance_to_goal
  else decide (a.1 < b.1)

/-- Placeholder entry for out-of-range heap reads; the heap algorithms
never perform any (Python would raise `IndexError` there). -/
def junkItem : HeapItem :=
  (0, { position := (0, 0)
        walls := { north := false, east := false, south := false, west := false }
        distance_to_goal := none
        distance_to_start := none
        confirmed_distance := false }, [])

/-- Indexing `heap[i]`. -/
def heapGet (heap : List HeapItem) (i : Nat) : HeapItem := heap.getD i junkItem

/-- `heapq._siftdown(heap, startpos, pos)` with `newitem = heap[pos]`
captured on entry: walk parents down until the new item's place is found,
then write it there.  The walk is driven by explicit fuel so that it
computes by structural recursion; `siftdown` supplies `fuel = pos`, which
bounds the number of parent steps, and when the fuel and the position hit
zero together the fallback write agrees with the loop exit. -/
def siftdownF (startpos : Nat) (newitem : HeapItem) :
    Nat → Nat → List HeapItem → List HeapItem
  | 0, pos, heap => heap.set pos newitem
  | fuel + 1, pos, heap =>
    if startpos < pos then
      let parentpos := (pos - 1) / 2
      let parent := heapGet heap parentpos
      if pyItemLt newitem parent then
        siftdownF startpos newitem fuel parentpos (heap.set pos parent)
      else heap.set pos newitem
    else heap.set pos newitem

/-- `heapq._siftdown`. -/
def siftdown (startpos : Nat) (newitem : HeapItem) (pos : Nat)
    (heap : List HeapItem) : List HeapItem :=
  siftdownF startpos newitem pos pos heap

/-- `heapq.heappush`: append, then sift the new last entry down toward the
root. -/
def heappush (heap : List HeapItem) (item : HeapItem) : List HeapItem :=
  siftdown 0 item heap.length (heap ++ [item])

/-- The child-walking loop of `heapq._siftup`: bubble the smaller child up
into `pos` until a leaf is reached, then place `newitem` by `_siftdown`
(whose final write subsumes the `heap[pos] = newitem` statement).  Fuel
`endpos` bounds the walk; once the fuel runs out the position is already
past the last parent, where the fallback agrees with the loop exit. -/
def siftupLoopF (endpos startpos : Nat) (newitem : HeapItem) :
    Nat → Nat → List HeapItem → List HeapItem
  | 0, pos, heap => siftdown startpos newitem pos heap
  | fuel + 1, pos, heap =>
    if 2 * pos + 1 < endpos then
      let childpos := 2 * pos + 1
      let rightpos := childpos + 1
      let childpos2 :=
        if rightpos < endpos ∧
            ¬pyItemLt (heapGet heap childpos) (heapGet heap rightpos) = true then
          rightpos
        else childpos
      siftupLoopF endpos startpos newitem fuel childpos2
        (heap.set pos (heapGet heap childpos2))
    else siftdown startpos newitem pos heap

/-- `heapq._siftup(heap, pos)` with `newitem = heap[pos]` captured on
entry. -/
def siftup (heap : List HeapItem) (pos : Nat) : List HeapItem :=
  siftupLoopF heap.length pos (heapGet heap pos) heap.length pos heap

/-- `heapq.heappop`: pop the last entry; if the heap is still non-empty,
return the root, move the last entry to the root and sift it up.  `none`
models the `IndexError` on an empty heap (never reached: the loop guards
non-emptiness). -/
def heappop (heap : List HeapItem) : Option (HeapItem × List HeapItem) :=
  match heap with
  | [] => none
  | _ :: _ =>
    let lastelt := heapGet heap (heap.length - 1)
    let rest := heap.dropLast
    if rest.isEmpty then some (lastelt, [])
    else some (heapGet rest 0, siftup (rest.set 0 lastelt) 0)

/-- `Maze.is_straight`: the two consecutive displacement vectors agree. -/
def Maze.is_straight (p1 p2 p3 : Pos) : Bool :=
  decide ((p2.1 - p1.1, p2.2 - p1.2) = (p3.1 - p2.1, p3.2 - p2.2))

/-- Corner count over a window of three consecutive path positions, summed
along the path (the source's sum over interior indices). -/
def countCornersAux : List Pos → Nat
  | a :: b :: c :: rest =>
    (if Maze.is_straight a b c then 0 else 1) + countCornersAux (b :: c :: rest)
  | _ => 0

/-- `Maze.count_corners`. -/
def Maze.count_corners (path : List MazeCell) : Nat :=
  countCornersAux (path.map MazeCell.position)

/-- `Maze.path_cost`: `CORNER_WEIGHT * corners + DISTANCE_WEIGHT * distance`. -/
def Maze.path_cost (corners distance : Nat) : Nat := 2 * corners + 1 * distance

/-- Failure modes of the embedded `find_fastest_path`: `indexError` models
`Maze.get_cell` raising on an out-of-bounds start, `typeError` models
`2 * corners + 1 * None` when a confirmed candidate has no goal distance,
and `fuelOut` is the (never reached, see the C4 theorem) fuel bound. -/
inductive FfpErr : Type where
  | indexError : FfpErr
  | typeError : FfpErr
  | fuelOut : FfpErr
deriving DecidableEq, Repr

/-- The `for neighbor in candidate_cells:` loop of `find_fastest_path`:
compute each neighbour's added cost (corners of the whole extended path,
plus the neighbour's flood-fill goal distance) and push it. -/
def ffp_push_candidates (cost : Nat) (current : MazeCell)
    (path : List MazeCell) :
    List MazeCell → List HeapItem → Except FfpErr (List HeapItem)
  | [], heap => .ok heap
  | nb :: rest, heap =>
    match nb.distance_to_goal with
    | none => .error .typeError
    | some distance =>
      let corners := Maze.count_corners (path ++ [current, nb])
      let added_cost := Maze.path_cost corners distance
      ffp_push_candidates cost current path rest
        (heappush heap (cost + added_cost, nb, path ++ [current]))

/-- The `while open_set:` loop of `find_fastest_path`. -/
def ffp_loop (m : Maze) (goal : Pos) :
    Nat → List HeapItem → List MazeCell → Except FfpErr (Option (List MazeCell))
  | 0, _, _ => .error .fuelOut
  | fuel + 1, open_set, visited =>
    match heappop open_set with
    | none => .ok none
    | some ((cost, current_cell, path), rest) =>
      if current_cell.position = goal then .ok (some (path ++ [current_cell]))
      else if pySetMem current_cell visited then ffp_loop m goal fuel rest visited
      else
        match ffp_push_candidates cost current_cell path
            ((m.get_reachable_neighbors current_cell.position).filter
              MazeCell.distance_is_confirmed) rest with
        | .error e => .error e
        | .ok open2 => ffp_loop m goal fuel open2 (current_cell :: visited)

/-- Fuel bound for the A* loop: every iteration pops one entry, and pushes
happen only when a new cell is expanded, which occurs at most once per
in-bounds cell. -/
def Maze.ffp_fuel (m : Maze) : Nat := 5 * (m.width.toNat * m.height.toNat) + 2

/-- `Maze.find_fastest_path(start, goal)`: A* search over confirmed cells.
The `contains` guard models `self.get_cell(start)` raising `IndexError`;
`draw` and all `API.log`/`API.setColor` calls are external and dropped. -/
def Maze.find_fastest_path (m : Maze) (start goal : Pos) :
    Except FfpErr (Option (List MazeCell)) :=
  if m.contains start then
    ffp_loop m goal m.ffp_fuel [(0, m.get_cell start, [])] []
  else .error .indexError

/-- Bounded wall-symmetry checker over the grid enumeration. -/
def wallSymB (m : Maze) : Bool :=
  (gridPositions m).all fun p => allDirections.all fun d =>
    !(m.contains (d.add_to_position p)) ||
      decide ((m.walls p).get d = (m.walls (d.add_to_position p)).get d.minus_180)

/-- The bounded checker implies the symmetry invariant. -/
theorem wallSymB_correct {m : Maze} (h : wallSymB m = true) : WallSym m := by
  intro p d h1 h2
  have hp := mem_gridPositions_of_contains h1
  have hall := List.all_eq_true.mp h p hp
  have hd := List.all_eq_true.mp hall d (by cases d <;> simp [allDirections])
  simp only [Bool.or_eq_true, Bool.not_eq_true', decide_eq_true_eq] at hd
  rcases hd with h4 | h4
  · rw [h2] at h4
    exact Bool.noConfusion h4
  · exact h4

/-- One hop of a route as the claims state it: the next position is the
in-bounds neighbour across a direction the current cell records as open. -/
def routeStepB (m : Maze) (p q : Pos) : Bool :=
  allDirections.any fun d => decide (q = d.add_to_position p) && m.openStep p d

/-- Checker for a path of confirmed cells: non-empty, every cell in bounds
and confirmed, every consecutive pair one open hop apart. -/
def confirmedPathB (m : Maze) : List Pos → Bool
  | [] => false
  | [p] => m.contains p && m.confirmed_distance p
  | p :: q :: rest =>
    m.contains p && m.confirmed_distance p && routeStepB m p q &&
      confirmedPathB m (q :: rest)

/-- Checker for a confirmed route from `s` to `g`. -/
def isConfirmedRouteB (m : Maze) (s g : Pos) (ps : List Pos) : Bool :=
  decide (ps.head? = some s) && decide (ps.getLast? = some g) && confirmedPathB m ps

/-- The cost model stated by the specification: twice the corner count plus
one per edge hop. -/
def formulaPathCost (path : List MazeCell) : Nat :=
  Maze.path_cost (Maze.count_corners path) (path.length - 1)

/-- The 2 by 5 maze with one internal wall between `(0,4)` and `(1,4)`. -/
def c1Maze0 : Maze := (Maze.init 2 5).set_wall (0, 4) .EAST

/-- The same maze after one flood fill toward the goal `(1,4)`. -/
def c1Maze1 : Maze :=
  (c1Maze0.update_flood_fill_distances (1, 4) false).getD c1Maze0

/-- The counterexample state: flood-filled distances and every cell
confirmed. -/
def c1Maze : Maze := { c1Maze1 with confirmed_distance := fun _ => true }

/-- The path the search actually returns: up the west column, with two late
corners. -/
def c1ReturnedPath : List MazeCell :=
  [c1Maze.get_cell (0, 0), c1Maze.get_cell (0, 1), c1Maze.get_cell (0, 2),
    c1Maze.get_cell (0, 3), c1Maze.get_cell (1, 3), c1Maze.get_cell (1, 4)]

/-- A strictly cheaper route under the stated cost model: east first, then
straight up the east column, with a single corner. -/
def c1AltPath : List MazeCell :=
  [c1Maze.get_cell (0, 0), c1Maze.get_cell (1, 0), c1Maze.get_cell (1, 1),
    c1Maze.get_cell (1, 2), c1Maze.get_cell (1, 3), c1Maze.get_cell (1, 4)]

/-- C1 counterexample: on a symmetric maze whose cells are all confirmed
and connected, `find_fastest_path` returns a path of cost 9 under the
stated formula although a confirmed route of cost 7 exists — the search
accumulates `2·corners(prefix) + flood-fill distance` per step, which is
not the stated cost model. -/
theorem find_fastest_path_not_cost_minimal :
    WallSym c1Maze ∧
      isConfirmedRouteB c1Maze (0, 0) (1, 4)
        (c1AltPath.map MazeCell.position) = true ∧
      c1Maze.find_fastest_path (0, 0) (1, 4) = .ok (some c1ReturnedPath) ∧
      isConfirmedRouteB c1Maze (0, 0) (1, 4)
        (c1ReturnedPath.map MazeCell.position) = true ∧
      formulaPathCost c1ReturnedPath = 9 ∧
      formulaPathCost c1AltPath = 7 :=
  ⟨wallSymB_correct (by decide), by decide, by rfl, by decide, by decide, by decide⟩

/-- Reading a slot other than the one just written. -/
theorem heapGet_set_ne (l : List HeapItem) (i j : Nat) (a : HeapItem)
    (h : j ≠ i) : heapGet (l.set i a) j = heapGet l j := by
  unfold heapGet
  by_cases hj : j < l.length
  · rw [List.getD_eq_getElem _ _ (by simpa using hj), List.getD_eq_getElem _ _ hj]
    exact List.getElem_set_ne (fun hc => h hc.symm) _
  · rw [List.getD_eq_default _ _ (by simpa using Nat.le_of_not_lt hj),
      List.getD_eq_default _ _ (Nat.le_of_not_lt hj)]

/-- Multiset view of a heap. -/
def heapMset (l : List HeapItem) : Multiset HeapItem := (l : Multiset HeapItem)

/-- Writing one heap slot exchanges its old entry for the new one, as
multisets. -/
theorem mset_set :
    ∀ (l : List HeapItem) (i : Nat) (a : HeapItem), i < l.length →
      heapMset (l.set i a) + {heapGet l i} = heapMset l + {a} := by
  intro l
  induction l with
  | nil => intro i a h; simp at h
  | cons b t ih =>
    intro i a h
    match i with
    | 0 =>
      show heapMset (a :: t) + {b} = heapMset (b :: t) + {a}
      unfold heapMset
      simp only [← Multiset.cons_coe, ← Multiset.singleton_add]
      abel
    | i + 1 =>
      show heapMset (b :: t.set i a) + {heapGet t i} = heapMset (b :: t) + {a}
      have hih := ih i a (by simpa using h)
      unfold heapMset at hih ⊢
      simp only [← Multiset.cons_coe, ← Multiset.singleton_add] at hih ⊢
      calc {b} + (↑(t.set i a) : Multiset HeapItem) + {heapGet t i}
          = (↑(t.set i a) : Multiset HeapItem) + {heapGet t i} + {b} := by abel
        _ = (↑t : Multiset HeapItem) + {a} + {b} := by rw [hih]
        _ = {b} + (↑t : Multiset HeapItem) + {a} := by abel

/-- The parent walk of `_siftdown` exchanges the entry at `pos` for the new
item, as multisets. -/
theorem siftdownF_mset (startpos : Nat) (newitem : HeapItem) :
    ∀ (fuel pos : Nat) (heap : List HeapItem), pos < heap.length →
      heapMset (siftdownF startpos newitem fuel pos heap) + {heapGet heap pos} =
        heapMset heap + {newitem} := by
  intro fuel
  induction fuel with
  | zero => intro pos heap hlen; exact mset_set heap pos newitem hlen
  | succ fuel ih =>
    intro pos heap hlen
    rw [siftdownF]
    by_cases hpos : startpos < pos
    · rw [if_pos hpos]
      by_cases hcmp : pyItemLt newitem (heapGet heap ((pos - 1) / 2)) = true
      · rw [if_pos hcmp]
        have hpar : (pos - 1) / 2 < (heap.set pos (heapGet heap ((pos - 1) / 2))).length := by
          rw [List.length_set]
          omega
        have hget : heapGet (heap.set pos (heapGet heap ((pos - 1) / 2))) ((pos - 1) / 2) =
            heapGet heap ((pos - 1) / 2) := heapGet_set_ne _ _ _ _ (by omega)
        have h1 := ih ((pos - 1) / 2) (heap.set pos (heapGet heap ((pos - 1) / 2))) hpar
        rw [hget] at h1
        have h2 := mset_set heap pos (heapGet heap ((pos - 1) / 2)) hlen
        have key := calc
          heapMset (siftdownF startpos newitem fuel ((pos - 1) / 2)
              (heap.set pos (heapGet heap ((pos - 1) / 2)))) +
              {heapGet heap pos} + {heapGet heap ((pos - 1) / 2)}
            = heapMset (siftdownF startpos newitem fuel ((pos - 1) / 2)
                (heap.set pos (heapGet heap ((pos - 1) / 2)))) +
                {heapGet heap ((pos - 1) / 2)} + {heapGet heap pos} := by
                  unfold heapMset
                  abel
          _ = heapMset (heap.set pos (heapGet heap ((pos - 1) / 2))) + {newitem} +
                {heapGet heap pos} := by rw [h1]
          _ = heapMset (heap.set pos (heapGet heap ((pos - 1) / 2))) + {heapGet heap pos} +
                {newitem} := by
                  unfold heapMset
                  abel
          _ = heapMset heap + {heapGet heap ((pos - 1) / 2)} + {newitem} := by rw [h2]
          _ = heapMset heap + {newitem} + {heapGet heap ((pos - 1) / 2)} := by
                unfold heapMset
                abel
        exact add_right_cancel key
      · rw [if_neg hcmp]
        exact mset_set heap pos newitem hlen
    · rw [if_neg hpos]
      exact mset_set heap pos newitem hlen

/-- The child walk of `_siftup` exchanges the entry at `pos` for the new
item, as multisets. -/
theorem siftupLoopF_mset (endpos startpos : Nat) (newitem : HeapItem) :
    ∀ (fuel pos : Nat) (heap : List HeapItem), pos < heap.length →
      endpos ≤ heap.length →
      heapMset (siftupLoopF endpos startpos newitem fuel pos heap) + {heapGet heap pos} =
        heapMset heap + {newitem} := by
  intro fuel
  induction fuel with
  | zero =>
    intro pos heap hlen hend
    exact siftdownF_mset startpos newitem pos pos heap hlen
  | succ fuel ih =>
    intro pos heap hlen hend
    rw [siftupLoopF]
    by_cases hchild : 2 * pos + 1 < endpos
    · rw [if_pos hchild]
      set c2 : Nat := if 2 * pos + 1 + 1 < endpos ∧
          ¬pyItemLt (heapGet heap (2 * pos + 1)) (heapGet heap (2 * pos + 1 + 1)) = true then
          2 * pos + 1 + 1
        else 2 * pos + 1 with hc2
      have hc2big : pos < c2 ∧ c2 < endpos := by
        rw [hc2]
        split <;> omega
      show heapMset (siftupLoopF endpos startpos newitem fuel c2
          (heap.set pos (heapGet heap c2))) + {heapGet heap pos} =
        heapMset heap + {newitem}
      have hpar : c2 < (heap.set pos (heapGet heap c2)).length := by
        rw [List.length_set]
        omega
      have hget : heapGet (heap.set pos (heapGet heap c2)) c2 = heapGet heap c2 :=
        heapGet_set_ne _ _ _ _ (by omega)
      have h1 := ih c2 (heap.set pos (heapGet heap c2)) hpar (by rw [List.length_set]; omega)
      rw [hget] at h1
      have h2 := mset_set heap pos (heapGet heap c2) hlen
      have key := calc
        heapMset (siftupLoopF endpos startpos newitem fuel c2
            (heap.set pos (heapGet heap c2))) + {heapGet heap pos} + {heapGet heap c2}
          = heapMset (siftupLoopF endpos startpos newitem fuel c2
              (heap.set pos (heapGet heap c2))) + {heapGet heap c2} + {heapGet heap pos} := by
                unfold heapMset
                abel
        _ = heapMset (heap.set pos (heapGet heap c2)) + {newitem} + {heapGet heap pos} := by
              rw [h1]
        _ = heapMset (heap.set pos (heapGet heap c2)) + {heapGet heap pos} + {newitem} := by
              unfold heapMset
              abel
        _ = heapMset heap + {heapGet heap c2} + {newitem} := by rw [h2]
        _ = heapMset heap + {newitem} + {heapGet heap c2} := by
              unfold heapMset
              abel
      exact add_right_cancel key
    · rw [if_neg hchild]
      exact siftdownF_mset startpos newitem pos pos heap hlen

/-- `heappush` adds exactly the pushed entry. -/
theorem heappush_mset (heap : List HeapItem) (item : HeapItem) :
    heapMset (heappush heap item) = heapMset heap + {item} := by
  unfold heappush siftdown
  have hlen : heap.length < (heap ++ [item]).length := by
    rw [List.length_append]
    simp
  have h1 := siftdownF_mset 0 item heap.length heap.length (heap ++ [item]) hlen
  have hget : heapGet (heap ++ [item]) heap.length = item := by
    unfold heapGet
    induction heap with
    | nil => rfl
    | cons a t iht => simp [iht]
  have h2 : heapMset (heap ++ [item]) = heapMset heap + {item} := rfl
  rw [hget, h2] at h1
  exact add_right_cancel h1

/-- `heappop` removes exactly the returned entry. -/
theorem heappop_mset (heap : List HeapItem) (x : HeapItem) (h2 : List HeapItem)
    (h : heappop heap = some (x, h2)) :
    heapMset heap = heapMset h2 + {x} := by
  match heap, h with
  | a :: t, h =>
    rw [heappop] at h
    have hne : a :: t ≠ [] := by simp
    have hlast : heapGet (a :: t) ((a :: t).length - 1) = (a :: t).getLast hne := by
      unfold heapGet
      rw [List.getD_eq_getElem _ _ (by simp), List.getLast_eq_getElem]
    by_cases hrest : (a :: t).dropLast.isEmpty = true
    · rw [if_pos hrest] at h
      cases h
      have hemp : (a :: t).dropLast = [] := List.isEmpty_iff.mp hrest
      have hlen1 : (a :: t).length = 1 := by
        have hd := congrArg List.length hemp
        rw [List.length_dropLast] at hd
        simp at hd
        simp [hd]
      match t, hlen1 with
      | [], _ => rfl
    · rw [if_neg hrest] at h
      cases h
      have hdne : (a :: t).dropLast ≠ [] := fun hc => hrest (by rw [hc]; rfl)
      have hlen0 : 0 < (a :: t).dropLast.length := List.length_pos.mpr hdne
      have hslen : 0 < ((a :: t).dropLast.set 0
          (heapGet (a :: t) ((a :: t).length - 1))).length := by
        rw [List.length_set]
        exact hlen0
      have h1 := siftupLoopF_mset
        ((a :: t).dropLast.set 0 (heapGet (a :: t) ((a :: t).length - 1))).length 0
        (heapGet ((a :: t).dropLast.set 0 (heapGet (a :: t) ((a :: t).length - 1))) 0)
        ((a :: t).dropLast.set 0 (heapGet (a :: t) ((a :: t).length - 1))).length 0
        ((a :: t).dropLast.set 0 (heapGet (a :: t) ((a :: t).length - 1)))
        hslen (Nat.le_refl _)
      have hperm : heapMset (siftup
          ((a :: t).dropLast.set 0 (heapGet (a :: t) ((a :: t).length - 1))) 0) =
          heapMset ((a :: t).dropLast.set 0 (heapGet (a :: t) ((a :: t).length - 1))) := by
        unfold siftup
        exact add_right_cancel h1
      have hset := mset_set (a :: t).dropLast 0
        (heapGet (a :: t) ((a :: t).length - 1)) hlen0
      have hcoe : heapMset (a :: t) =
          heapMset (a :: t).dropLast + {(a :: t).getLast hne} := by
        unfold heapMset
        conv =>
          lhs
          rw [← List.dropLast_concat_getLast hne]
        rfl
      show heapMset (a :: t) =
        heapMset (siftup ((a :: t).dropLast.set 0
          (heapGet (a :: t) ((a :: t).length - 1))) 0) + {heapGet (a :: t).dropLast 0}
      rw [hperm, hset, hcoe, hlast]

/-- Membership after a push. -/
theorem heappush_mem (heap : List HeapItem) (item y : HeapItem) :
    y ∈ heappush heap item ↔ y ∈ heap ∨ y = item := by
  have h := heappush_mset heap item
  have hm := congrArg (fun s => y ∈ s) h
  unfold heapMset at hm
  simpa using hm

/-- Heap length after a push. -/
theorem heappush_length (heap : List HeapItem) (item : HeapItem) :
    (heappush heap item).length = heap.length + 1 := by
  have h := congrArg Multiset.card (heappush_mset heap item)
  unfold heapMset at h
  simpa using h

/-- Membership before and after a pop. -/
theorem heappop_mem {heap : List HeapItem} {x : HeapItem} {h2 : List HeapItem}
    (h : heappop heap = some (x, h2)) :
    ∀ y, y ∈ heap ↔ y ∈ h2 ∨ y = x := by
  intro y
  have hm := congrArg (fun s => y ∈ s) (heappop_mset heap x h2 h)
  unfold heapMset at hm
  simpa using hm

/-- Heap length after a pop. -/
theorem heappop_length {heap : List HeapItem} {x : HeapItem} {h2 : List HeapItem}
    (h : heappop heap = some (x, h2)) : heap.length = h2.length + 1 := by
  have hc := congrArg Multiset.card (heappop_mset heap x h2 h)
  unfold heapMset at hc
  simpa using hc

/-- A chain of traversable hops along a list of positions: non-empty, every
position in bounds, and every consecutive pair one open hop apart. -/
def routeChainB (m : Maze) : List Pos → Bool
  | [] => false
  | [p] => m.contains p
  | p :: q :: rest => m.contains p && routeStepB m p q && routeChainB m (q :: rest)

/-- A route from `s` to `g` in which every position after the start is
confirmed — exactly the routes `find_fastest_path` can traverse, since the
start cell's own confirmation is never checked. -/
def AlmostConfRoute (m : Maze) (s g : Pos) : Prop :=
  ∃ ps : List Pos, ps.head? = some s ∧ ps.getLast? = some g ∧
    routeChainB m ps = true ∧ ∀ q ∈ ps.tail, m.confirmed_distance q = true

/-- Appending one open hop to a chain. -/
theorem routeChainB_append (m : Maze) :
    ∀ (ps : List Pos) (p q : Pos), routeChainB m ps = true →
      ps.getLast? = some p → routeStepB m p q = true → m.contains q = true →
      routeChainB m (ps ++ [q]) = true := by
  intro ps
  induction ps with
  | nil => intro p q hc _ _ _; exact absurd hc (by rw [routeChainB]; simp)
  | cons a t ih =>
    intro p q hc hl hs hq
    match t with
    | [] =>
      have ha : a = p := by simpa using hl
      subst ha
      show (m.contains a && routeStepB m a q && routeChainB m [q]) = true
      rw [routeChainB]
      simp only [Bool.and_eq_true]
      exact ⟨⟨by rw [routeChainB] at hc; exact hc, hs⟩, hq⟩
    | b :: rest =>
      rw [routeChainB] at hc
      simp only [Bool.and_eq_true] at hc
      have hl2 : (b :: rest).getLast? = some p := by
        rw [List.getLast?_cons_cons] at hl
        exact hl
      have := ih p q hc.2 hl2 hs hq
      show (m.contains a && routeStepB m a b && routeChainB m (b :: rest ++ [q])) = true
      simp only [Bool.and_eq_true]
      exact ⟨hc.1, this⟩

/-- Every adjacent pair inside a chain is one open hop. -/
theorem routeChainB_extract (m : Maze) :
    ∀ (X : List Pos) (p q : Pos) (Y : List Pos),
      routeChainB m (X ++ p :: q :: Y) = true → routeStepB m p q = true := by
  intro X
  induction X with
  | nil =>
    intro p q Y hc
    rw [List.nil_append, routeChainB] at hc
    simp only [Bool.and_eq_true] at hc
    exact hc.1.2
  | cons x X ih =>
    intro p q Y hc
    rw [List.cons_append] at hc
    match hX : X ++ p :: q :: Y, hc with
    | [], hc => exact absurd hX (by simp)
    | b :: rest, hc =>
      rw [routeChainB] at hc
      simp only [Bool.and_eq_true] at hc
      have := hc.2
      rw [← hX] at this
      exact ih p q Y this

/-- A position preceded by at least one other on a list belongs to its
tail. -/
theorem mem_tail_of_append_cons {α : Type} (X : List α) (p x : α)
    (Y : List α) : x ∈ (X ++ p :: x :: Y).tail := by
  cases X <;> simp

/-- Splitting a list at the last occurrence of a member. -/
theorem exists_last_occurrence {α : Type} [DecidableEq α] {x : α} :
    ∀ {l : List α}, x ∈ l → ∃ A B, l = A ++ x :: B ∧ x ∉ B := by
  intro l
  induction l with
  | nil => intro h; exact absurd h (List.not_mem_nil x)
  | cons a t ih =>
    intro h
    by_cases hx : x ∈ t
    · obtain ⟨A, B, hAB, hB⟩ := ih hx
      exact ⟨a :: A, B, by rw [hAB]; rfl, hB⟩
    · have ha : x = a := by
        rcases List.mem_cons.mp h with h1 | h1
        · exact h1
        · exact absurd h1 hx
      exact ⟨[], t, by simp [ha], hx⟩

/-- Every position on a chain is in bounds. -/
theorem routeChainB_contains (m : Maze) :
    ∀ ps, routeChainB m ps = true → ∀ p ∈ ps, m.contains p = true := by
  intro ps
  induction ps with
  | nil => intro hc p hp; exact absurd hp (List.not_mem_nil p)
  | cons a t ih =>
    intro hc p hp
    match t, hc, ih with
    | [], hc, _ =>
      rw [routeChainB] at hc
      rcases List.mem_cons.mp hp with h | h
      · exact h ▸ hc
      · exact absurd h (List.not_mem_nil p)
    | b :: rest, hc, ih =>
      rw [routeChainB] at hc
      simp only [Bool.and_eq_true] at hc
      rcases List.mem_cons.mp hp with h | h
      · exact h ▸ hc.1.1
      · exact ih hc.2 p h

/-- Destructing one hop of a route. -/
theorem routeStepB_elim {m : Maze} {p q : Pos} (h : routeStepB m p q = true) :
    ∃ d, q = d.add_to_position p ∧ m.openStep p d = true := by
  unfold routeStepB at h
  simp only [List.any_eq_true, Bool.and_eq_true, decide_eq_true_eq] at h
  obtain ⟨d, -, hq, ho⟩ := h
  exact ⟨d, hq, ho⟩

/-- Building one hop of a route. -/
theorem routeStepB_intro (m : Maze) (p : Pos) (d : Direction)
    (h : m.openStep p d = true) :
    routeStepB m p (d.add_to_position p) = true := by
  unfold routeStepB
  simp only [List.any_eq_true, Bool.and_eq_true, decide_eq_true_eq]
  exact ⟨d, by cases d <;> simp [allDirections], rfl, h⟩

/-- Cells returned by `Maze.get_reachable_neighbors`: exactly the cells at
the in-bounds neighbours with no wall in between. -/
theorem Maze.mem_reachable_cells (m : Maze) (p : Pos) (c : MazeCell) :
    c ∈ m.get_reachable_neighbors p ↔
      ∃ d, m.openStep p d = true ∧ c = m.get_cell (d.add_to_position p) := by
  unfold Maze.get_reachable_neighbors Maze.openStep
  constructor
  · intro h
    simp only [List.mem_filterMap] at h
    obtain ⟨d, -, hd⟩ := h
    cases hcond : (m.contains (d.add_to_position p) && !((m.walls p).get d)) with
    | true =>
      simp only [hcond, if_true] at hd
      exact ⟨d, hcond, (Option.some.inj hd).symm⟩
    | false =>
      simp only [hcond, Bool.false_eq_true, if_false] at hd
      exact Option.noConfusion hd
  · rintro ⟨d, hd, rfl⟩
    simp only [List.mem_filterMap]
    refine ⟨d, by cases d <;> simp [allDirections], ?_⟩
    rw [if_pos hd]

/-- A cell is in its own Python set. -/
theorem pySetMem_cons_self (x : MazeCell) (V : List MazeCell) :
    pySetMem x (x :: V) = true := by
  unfold pySetMem
  simp [MazeCell.pyEq]

/-- Growing a Python set never loses members. -/
theorem pySetMem_cons_of_mem {x : MazeCell} {V : List MazeCell}
    (h : pySetMem x V = true) (y : MazeCell) : pySetMem x (y :: V) = true := by
  unfold pySetMem at h ⊢
  rw [List.any_cons, h]
  simp

/-- Membership of a grid cell in a Python set extended by a grid cell: the
`hash(repr(...))` bucket pins the position down, so the new element is hit
exactly when the positions agree. -/
theorem pySetMem_get_cell_cons (M : Maze) (x y : Pos) (V : List MazeCell) :
    pySetMem (M.get_cell x) (M.get_cell y :: V) = true ↔
      x = y ∨ pySetMem (M.get_cell x) V = true := by
  unfold pySetMem
  rw [List.any_cons]
  simp only [Bool.or_eq_true, Bool.and_eq_true, decide_eq_true_eq]
  constructor
  · rintro (⟨hk, -⟩ | h)
    · left
      have := congrArg (fun k : Pos × Walls × Option Nat => k.1) hk
      simpa [MazeCell.reprKey, Maze.get_cell] using this.symm
    · right; exact h
  · rintro (rfl | h)
    · left
      exact ⟨rfl, by simp [MazeCell.pyEq]⟩
    · right; exact h

/-- A well-formed trail of the A* search: all cells read off the maze, the
positions starting at `s` and chained by open hops, and every position
after the start confirmed. -/
def GoodTrail (M : Maze) (s : Pos) (cs : List MazeCell) : Prop :=
  (∀ c ∈ cs, c = M.get_cell c.position) ∧
  (cs.map MazeCell.position).head? = some s ∧
  routeChainB M (cs.map MazeCell.position) = true ∧
  ∀ q ∈ (cs.map MazeCell.position).tail, M.confirmed_distance q = true

/-- A well-formed heap entry: its path extended by its cell is a
well-formed trail. -/
def GoodItem (M : Maze) (s : Pos) (it : HeapItem) : Prop :=
  GoodTrail M s (it.2.2 ++ [it.2.1])

/-- Extending a well-formed trail by one open hop into a confirmed maze
cell. -/
theorem GoodTrail.extend {M : Maze} {s : Pos} {cs : List MazeCell}
    (h : GoodTrail M s cs) {cur : MazeCell} (hlast : cs.getLast? = some cur)
    {d : Direction} (hopen : M.openStep cur.position d = true)
    {nb : MazeCell} (hnb : nb = M.get_cell (d.add_to_position cur.position))
    (hconf : nb.confirmed_distance = true) :
    GoodTrail M s (cs ++ [nb]) := by
  obtain ⟨hcells, hhead, hchain, htail⟩ := h
  have hnbpos : nb.position = d.add_to_position cur.position := by rw [hnb]; rfl
  have hnbcell : nb = M.get_cell nb.position := by rw [hnbpos]; exact hnb
  have hmap : (cs ++ [nb]).map MazeCell.position =
      cs.map MazeCell.position ++ [nb.position] := by simp
  have hlastpos : (cs.map MazeCell.position).getLast? = some cur.position := by
    rw [List.getLast?_map, hlast]; rfl
  have hstep : routeStepB M cur.position nb.position = true := by
    rw [hnbpos]; exact routeStepB_intro M cur.position d hopen
  have hcont : M.contains nb.position = true := by
    rw [hnbpos]; exact Maze.openStep_contains hopen
  refine ⟨?_, ?_, ?_, ?_⟩
  · intro c hc
    rcases List.mem_append.mp hc with h1 | h1
    · exact hcells c h1
    · rw [List.mem_singleton.mp h1]; exact hnbcell
  · rw [hmap, List.head?_append, hhead]; rfl
  · rw [hmap]
    exact routeChainB_append M _ cur.position nb.position hchain hlastpos hstep hcont
  · intro q hq
    rw [hmap] at hq
    match hcs : cs, hhead with
    | c0 :: cs0, hhead =>
      simp only [List.map_cons, List.cons_append, List.tail_cons] at hq htail
      rcases List.mem_append.mp hq with h1 | h1
      · exact htail q h1
      · rw [List.mem_singleton.mp h1, hnbpos]
        rw [hnb] at hconf
        exact hconf

/-- A trail ending at a position carries that position's cell last: the
last cell of a good trail. -/
theorem GoodTrail.ne_nil {M : Maze} {s : Pos} {cs : List MazeCell}
    (h : GoodTrail M s cs) : cs ≠ [] := by
  intro hcon
  rw [hcon] at h
  exact Option.noConfusion h.2.1

/-- Totality of the candidate-push loop when every candidate carries a goal
distance. -/
theorem ffp_push_candidates_total (cost : Nat) (current : MazeCell)
    (path : List MazeCell) :
    ∀ (cands : List MazeCell) (heap : List HeapItem),
      (∀ nb ∈ cands, (nb.distance_to_goal).isSome = true) →
      ∃ H2, ffp_push_candidates cost current path cands heap = .ok H2 := by
  intro cands
  induction cands with
  | nil => intro heap _; exact ⟨heap, rfl⟩
  | cons nb rest ih =>
    intro heap hsome
    have h1 : (nb.distance_to_goal).isSome = true := hsome nb (by simp)
    match hd : nb.distance_to_goal, h1 with
    | some distance, _ =>
      obtain ⟨H2, hH2⟩ := ih
        (heappush heap (cost + Maze.path_cost
          (Maze.count_corners (path ++ [current, nb])) distance, nb, path ++ [current]))
        (fun c hc => hsome c (by simp [hc]))
      refine ⟨H2, ?_⟩
      rw [ffp_push_candidates, hd]
      exact hH2

/-- What a successful candidate push guarantees: bounded growth, old
entries preserved, new entries drawn from the candidates with the extended
path, and every candidate present. -/
theorem ffp_push_candidates_spec (cost : Nat) (current : MazeCell)
    (path : List MazeCell) :
    ∀ (cands : List MazeCell) (heap H2 : List HeapItem),
      ffp_push_candidates cost current path cands heap = .ok H2 →
      H2.length ≤ heap.length + cands.length ∧
      (∀ it ∈ heap, it ∈ H2) ∧
      (∀ it ∈ H2, it ∈ heap ∨
        ∃ nb ∈ cands, it.2.1 = nb ∧ it.2.2 = path ++ [current]) ∧
      (∀ nb ∈ cands, ∃ c, (c, nb, path ++ [current]) ∈ H2) := by
  intro cands
  induction cands with
  | nil =>
    intro heap H2 h
    rw [ffp_push_candidates] at h
    cases h
    refine ⟨by simp, fun it hit => hit, fun it hit => Or.inl hit, ?_⟩
    intro nb hnb
    exact absurd hnb (List.not_mem_nil nb)
  | cons nb rest ih =>
    intro heap H2 h
    rw [ffp_push_candidates] at h
    match hd : nb.distance_to_goal, h with
    | none, h => simp at h
    | some distance, h =>
      set pushed := heappush heap (cost + Maze.path_cost
        (Maze.count_corners (path ++ [current, nb])) distance, nb, path ++ [current])
        with hpushed
      have h2 : ffp_push_candidates cost current path rest pushed = .ok H2 := h
      obtain ⟨hlen, hold, hchar, hall⟩ := ih pushed H2 h2
      have hplen : pushed.length = heap.length + 1 := heappush_length heap _
      refine ⟨by rw [List.length_cons]; omega, ?_, ?_, ?_⟩
      · intro it hit
        exact hold it ((heappush_mem heap _ it).mpr (Or.inl hit))
      · intro it hit
        rcases hchar it hit with h1 | h1
        · rcases (heappush_mem heap _ it).mp h1 with h2 | h2
          · exact Or.inl h2
          · exact Or.inr ⟨nb, by simp, by rw [h2], by rw [h2]⟩
        · obtain ⟨c, hc, hc2⟩ := h1
          exact Or.inr ⟨c, by simp [hc], hc2⟩
      · intro c hc
        rcases List.mem_cons.mp hc with h1 | h1
        · refine ⟨cost + Maze.path_cost
            (Maze.count_corners (path ++ [current, nb])) distance, ?_⟩
          rw [h1]
          exact hold _ ((heappush_mem heap _ _).mpr (Or.inr rfl))
        · exact hall c h1

/-- A pop only reports an empty heap on an empty heap. -/
theorem heappop_eq_none {heap : List HeapItem} (h : heappop heap = none) :
    heap = [] := by
  cases heap with
  | nil => rfl
  | cons a t =>
    rw [heappop] at h
    split at h <;> exact Option.noConfusion h

/-- One unfolding of the A* loop when the pop fails. -/
theorem ffp_loop_succ_none (m : Maze) (goal : Pos) (fuel : Nat)
    (H : List HeapItem) (V : List MazeCell) (hpop : heappop H = none) :
    ffp_loop m goal (fuel + 1) H V = .ok none := by
  rw [ffp_loop, hpop]

/-- One unfolding of the A* loop when the pop succeeds. -/
theorem ffp_loop_succ_pop (m : Maze) (goal : Pos) (fuel : Nat)
    (H : List HeapItem) (V : List MazeCell) {cost : Nat} {cell : MazeCell}
    {path : List MazeCell} {rest : List HeapItem}
    (hpop : heappop H = some ((cost, cell, path), rest)) :
    ffp_loop m goal (fuel + 1) H V =
      if cell.position = goal then .ok (some (path ++ [cell]))
      else if pySetMem cell V then ffp_loop m goal fuel rest V
      else
        match ffp_push_candidates cost cell path
            ((m.get_reachable_neighbors cell.position).filter
              MazeCell.distance_is_confirmed) rest with
        | .error e => .error e
        | .ok open2 => ffp_loop m goal fuel open2 (cell :: V) := by
  rw [ffp_loop, hpop]

/-- Expanding a popped well-formed entry yields a heap of well-formed
entries. -/
theorem ffp_expand_inv (M : Maze) (s : Pos) {cost : Nat} {cell : MazeCell}
    {path : List MazeCell} {rest H2 : List HeapItem}
    (hGood : GoodTrail M s (path ++ [cell]))
    (hrest : ∀ it ∈ rest, GoodItem M s it)
    (hok : ffp_push_candidates cost cell path
      ((M.get_reachable_neighbors cell.position).filter
        MazeCell.distance_is_confirmed) rest = .ok H2) :
    ∀ it ∈ H2, GoodItem M s it := by
  obtain ⟨-, -, hchar, -⟩ := ffp_push_candidates_spec cost cell path _ rest H2 hok
  intro it hit
  rcases hchar it hit with h1 | h1
  · exact hrest it h1
  · obtain ⟨nb, hnb, hit1, hit2⟩ := h1
    have hf := List.mem_filter.mp hnb
    obtain ⟨d, hopen, hcellq⟩ :=
      (Maze.mem_reachable_cells M cell.position nb).mp hf.1
    have hconf : nb.confirmed_distance = true := hf.2
    unfold GoodItem
    rw [hit1, hit2]
    exact GoodTrail.extend hGood (List.getLast?_concat path) hopen hcellq hconf

/-- Number of in-bounds cells not yet in the visited set. -/
def ffpUncovered (M : Maze) (V : List MazeCell) : Nat :=
  (gridPositions M).countP fun p => !pySetMem (M.get_cell p) V

/-- Termination measure of the A* loop. -/
def ffpMeasure (M : Maze) (H : List HeapItem) (V : List MazeCell) : Nat :=
  5 * ffpUncovered M V + H.length

/-- Expanding an unvisited in-bounds cell strictly shrinks the uncovered
count. -/
theorem ffpUncovered_lt (M : Maze) {V : List MazeCell} {cell : MazeCell}
    (hcell : cell = M.get_cell cell.position)
    (hcont : M.contains cell.position = true)
    (hv : pySetMem cell V = false) :
    ffpUncovered M (cell :: V) < ffpUncovered M V := by
  unfold ffpUncovered
  refine countP_lt_of_flip (mem_gridPositions_of_contains hcont) ?_ ?_ ?_
  · intro a ha
    simp only [Bool.not_eq_true'] at ha ⊢
    cases hm : pySetMem (M.get_cell a) V with
    | false => rfl
    | true =>
      have := pySetMem_cons_of_mem hm cell
      rw [this] at ha
      exact ha
  · show (!pySetMem (M.get_cell cell.position) V) = true
    rw [← hcell, hv]
    rfl
  · show (!pySetMem (M.get_cell cell.position) (cell :: V)) = false
    rw [← hcell, pySetMem_cons_self]
    rfl

/-- Extending a Python set of grid cells keeps a distinct-position grid
cell out when it was out before. -/
theorem pySetMem_get_cell_cons_false (M : Maze) {x y : Pos} {V : List MazeCell}
    (hne : x ≠ y) (hV : pySetMem (M.get_cell x) V = false) :
    pySetMem (M.get_cell x) (M.get_cell y :: V) = false := by
  cases hm : pySetMem (M.get_cell x) (M.get_cell y :: V) with
  | false => rfl
  | true =>
    rcases (pySetMem_get_cell_cons M x y V).mp hm with h1 | h1
    · exact absurd h1 hne
    · rw [hV] at h1
      exact h1.symm

/-- Soundness of the A* loop: any returned path is a well-formed trail
(from `s`, along open hops, confirmed after the start) ending at the
goal. -/
theorem ffp_loop_sound (M : Maze) (s g : Pos) :
    ∀ (fuel : Nat) (H : List HeapItem) (V : List MazeCell) (cs : List MazeCell),
      (∀ it ∈ H, GoodItem M s it) →
      ffp_loop M g fuel H V = .ok (some cs) →
      GoodTrail M s cs ∧ (cs.map MazeCell.position).getLast? = some g := by
  intro fuel
  induction fuel with
  | zero =>
    intro H V cs _ h
    rw [ffp_loop] at h
    simp at h
  | succ fuel ih =>
    intro H V cs hinv h
    cases hpop : heappop H with
    | none =>
      rw [ffp_loop_succ_none M g fuel H V hpop] at h
      simp at h
    | some pr =>
      obtain ⟨⟨cost, cell, path⟩, rest⟩ := pr
      rw [ffp_loop_succ_pop M g fuel H V hpop] at h
      have hmemb : ((cost, cell, path) : HeapItem) ∈ H :=
        (heappop_mem hpop _).mpr (Or.inr rfl)
      have hGood : GoodTrail M s (path ++ [cell]) := hinv _ hmemb
      have hrest : ∀ it ∈ rest, GoodItem M s it := fun it h1 =>
        hinv it ((heappop_mem hpop it).mpr (Or.inl h1))
      by_cases hg : cell.position = g
      · rw [if_pos hg] at h
        simp only [Except.ok.injEq, Option.some.injEq] at h
        subst h
        refine ⟨hGood, ?_⟩
        rw [List.map_append]
        simp only [List.map_cons, List.map_nil]
        rw [List.getLast?_concat, hg]
      · rw [if_neg hg] at h
        by_cases hv : pySetMem cell V = true
        · rw [if_pos hv] at h
          exact ih rest V cs hrest h
        · rw [if_neg hv] at h
          cases hpush : ffp_push_candidates cost cell path
              ((M.get_reachable_neighbors cell.position).filter
                MazeCell.distance_is_confirmed) rest with
          | error e =>
            rw [hpush] at h
            have h2 : (Except.error e : Except FfpErr (Option (List MazeCell))) =
              Except.ok (some cs) := h
            exact Except.noConfusion h2
          | ok H2 =>
            rw [hpush] at h
            exact ih H2 (cell :: V) cs (ffp_expand_inv M s hGood hrest hpush) h

/-- Totality of the A* loop with enough fuel: it never hits the fuel bound
and never raises, provided confirmed in-bounds cells carry goal
distances. -/
theorem ffp_loop_total (M : Maze) (s g : Pos)
    (hconf : ∀ p, M.contains p = true → M.confirmed_distance p = true →
      (M.distance_to_goal p).isSome = true) :
    ∀ (fuel : Nat) (H : List HeapItem) (V : List MazeCell),
      (∀ it ∈ H, GoodItem M s it) → ffpMeasure M H V < fuel →
      ∃ r, ffp_loop M g fuel H V = .ok r := by
  intro fuel
  induction fuel with
  | zero =>
    intro H V _ hm
    exact absurd hm (by omega)
  | succ fuel ih =>
    intro H V hinv hm
    cases hpop : heappop H with
    | none => exact ⟨none, ffp_loop_succ_none M g fuel H V hpop⟩
    | some pr =>
      obtain ⟨⟨cost, cell, path⟩, rest⟩ := pr
      have hmemb : ((cost, cell, path) : HeapItem) ∈ H :=
        (heappop_mem hpop _).mpr (Or.inr rfl)
      have hGood : GoodTrail M s (path ++ [cell]) := hinv _ hmemb
      have hrest : ∀ it ∈ rest, GoodItem M s it := fun it h1 =>
        hinv it ((heappop_mem hpop it).mpr (Or.inl h1))
      have hHlen := heappop_length hpop
      by_cases hg : cell.position = g
      · exact ⟨some (path ++ [cell]),
          by rw [ffp_loop_succ_pop M g fuel H V hpop, if_pos hg]⟩
      · by_cases hv : pySetMem cell V = true
        · obtain ⟨r, hr⟩ := ih rest V hrest
            (by unfold ffpMeasure at hm ⊢; omega)
          exact ⟨r, by
            rw [ffp_loop_succ_pop M g fuel H V hpop, if_neg hg, if_pos hv]
            exact hr⟩
        · set cands := (M.get_reachable_neighbors cell.position).filter
            MazeCell.distance_is_confirmed with hcands
          have hsome : ∀ nb ∈ cands, (nb.distance_to_goal).isSome = true := by
            intro nb hnb
            have hf := List.mem_filter.mp hnb
            obtain ⟨d, hopen, hcellq⟩ :=
              (Maze.mem_reachable_cells M cell.position nb).mp hf.1
            have hcont := Maze.openStep_contains hopen
            have hc2 : M.confirmed_distance (d.add_to_position cell.position) = true := by
              have h3 := hf.2
              rw [hcellq] at h3
              exact h3
            have h4 := hconf _ hcont hc2
            rw [hcellq]
            exact h4
          obtain ⟨H2, hpush⟩ := ffp_push_candidates_total cost cell path cands rest hsome
          obtain ⟨hlen2, -, -, -⟩ := ffp_push_candidates_spec cost cell path cands rest H2 hpush
          have hc4 : cands.length ≤ 4 := by
            rw [hcands]
            calc ((M.get_reachable_neighbors cell.position).filter
                  MazeCell.distance_is_confirmed).length
                ≤ (M.get_reachable_neighbors cell.position).length :=
                  List.length_filter_le _ _
              _ ≤ allDirections.length := List.length_filterMap_le _ _
              _ = 4 := rfl
          have hcellself : cell = M.get_cell cell.position := hGood.1 cell (by simp)
          have hcont0 : M.contains cell.position = true := by
            refine routeChainB_contains M _ hGood.2.2.1 cell.position ?_
            simp
          have hvf : pySetMem cell V = false := by
            cases hb : pySetMem cell V with
            | false => rfl
            | true => exact absurd hb hv
          have hvlt := ffpUncovered_lt M hcellself hcont0 hvf
          obtain ⟨r, hr⟩ := ih H2 (cell :: V)
            (ffp_expand_inv M s hGood hrest hpush)
            (by unfold ffpMeasure at hm ⊢; omega)
          refine ⟨r, ?_⟩
          rw [ffp_loop_succ_pop M g fuel H V hpop, if_neg hg, if_neg hv,
            ← hcands, hpush]
          exact hr

/-- Completeness of the A* loop: as long as some almost-confirmed route to
the goal keeps a live entry in the heap and an unvisited continuation, the
loop never reports failure. -/
theorem ffp_loop_complete (M : Maze) (s g : Pos) (R : List Pos)
    (hRlast : R.getLast? = some g) (hRchain : routeChainB M R = true)
    (hRconf : ∀ q ∈ R.tail, M.confirmed_distance q = true) :
    ∀ (fuel : Nat) (H : List HeapItem) (V : List MazeCell),
      (∀ it ∈ H, GoodItem M s it) →
      (∃ pre q suf, R = pre ++ q :: suf ∧
        (∃ it ∈ H, it.2.1.position = q) ∧
        pySetMem (M.get_cell q) V = false ∧
        (∀ x ∈ suf, pySetMem (M.get_cell x) V = false)) →
      ffp_loop M g fuel H V ≠ .ok none := by
  intro fuel
  induction fuel with
  | zero =>
    intro H V _ _ h
    rw [ffp_loop] at h
    simp at h
  | succ fuel ih =>
    intro H V hinv hR h
    obtain ⟨pre, q, suf, hsplit, ⟨itq, hitq, hitqpos⟩, hqV, hsufV⟩ := hR
    cases hpop : heappop H with
    | none =>
      rw [heappop_eq_none hpop] at hitq
      exact absurd hitq (List.not_mem_nil itq)
    | some pr =>
      obtain ⟨⟨cost, cell, path⟩, rest⟩ := pr
      rw [ffp_loop_succ_pop M g fuel H V hpop] at h
      have hmemb : ((cost, cell, path) : HeapItem) ∈ H :=
        (heappop_mem hpop _).mpr (Or.inr rfl)
      have hGood : GoodTrail M s (path ++ [cell]) := hinv _ hmemb
      have hrest : ∀ it ∈ rest, GoodItem M s it := fun it h1 =>
        hinv it ((heappop_mem hpop it).mpr (Or.inl h1))
      have hcellself : cell = M.get_cell cell.position := hGood.1 cell (by simp)
      by_cases hg : cell.position = g
      · rw [if_pos hg] at h
        simp at h
      · rw [if_neg hg] at h
        by_cases hv : pySetMem cell V = true
        · rw [if_pos hv] at h
          have hne : itq ≠ ((cost, cell, path) : HeapItem) := by
            intro hcon
            rw [hcon] at hitqpos
            rw [← hitqpos, ← hcellself] at hqV
            rw [hqV] at hv
            exact Bool.noConfusion hv
          have hitq2 : itq ∈ rest := by
            rcases (heappop_mem hpop itq).mp hitq with h1 | h1
            · exact h1
            · exact absurd h1 hne
          exact ih rest V hrest
            ⟨pre, q, suf, hsplit, ⟨itq, hitq2, hitqpos⟩, hqV, hsufV⟩ h
        · rw [if_neg hv] at h
          cases hpush : ffp_push_candidates cost cell path
              ((M.get_reachable_neighbors cell.position).filter
                MazeCell.distance_is_confirmed) rest with
          | error e =>
            rw [hpush] at h
            have h2 : (Except.error e : Except FfpErr (Option (List MazeCell))) =
              Except.ok none := h
            exact Except.noConfusion h2
          | ok H2 =>
            rw [hpush] at h
            have hinv2 := ffp_expand_inv M s hGood hrest hpush
            obtain ⟨-, holdm, -, hall⟩ :=
              ffp_push_candidates_spec cost cell path _ rest H2 hpush
            have hallV : ∀ x ∈ q :: suf, pySetMem (M.get_cell x) V = false := by
              intro x hx
              rcases List.mem_cons.mp hx with h1 | h1
              · rw [h1]; exact hqV
              · exact hsufV x h1
            by_cases hqin : cell.position ∈ q :: suf
            · obtain ⟨A, B, hAB, hnotB⟩ := exists_last_occurrence hqin
              match hBv : B, hAB, hnotB with
              | [], hAB, _ =>
                have hlast2 : R.getLast? = some cell.position := by
                  rw [hsplit, hAB,
                    show pre ++ (A ++ [cell.position]) =
                      (pre ++ A) ++ [cell.position] from
                      (List.append_assoc pre A _).symm]
                  exact List.getLast?_concat _
                rw [hRlast] at hlast2
                exact hg (Option.some.inj hlast2).symm
              | q2 :: B2, hAB, hnotB =>
                have hsplit2 : R = (pre ++ A) ++ cell.position :: q2 :: B2 := by
                  rw [hsplit, hAB]
                  exact (List.append_assoc pre A _).symm
                have hstep : routeStepB M cell.position q2 = true :=
                  routeChainB_extract M (pre ++ A) _ _ B2 (hsplit2 ▸ hRchain)
                have hq2tail : q2 ∈ R.tail := by
                  rw [hsplit2]
                  exact mem_tail_of_append_cons _ _ _ _
                have hconfq2 : M.confirmed_distance q2 = true := hRconf q2 hq2tail
                obtain ⟨d, hq2eq, hopen⟩ := routeStepB_elim hstep
                have hcand : M.get_cell q2 ∈
                    (M.get_reachable_neighbors cell.position).filter
                      MazeCell.distance_is_confirmed := by
                  refine List.mem_filter.mpr ⟨?_, ?_⟩
                  · exact (Maze.mem_reachable_cells M cell.position _).mpr
                      ⟨d, hopen, by rw [hq2eq]⟩
                  · show (M.get_cell q2).confirmed_distance = true
                    exact hconfq2
                obtain ⟨c, hc⟩ := hall _ hcand
                have hq2ne : q2 ≠ cell.position := by
                  intro hcon
                  exact hnotB (hcon ▸ List.mem_cons_self q2 B2)
                have hq2V : pySetMem (M.get_cell q2) V = false := by
                  refine hallV q2 ?_
                  rw [hAB]
                  simp
                refine ih H2 (cell :: V) hinv2
                  ⟨(pre ++ A) ++ [cell.position], q2, B2, ?_,
                    ⟨(c, M.get_cell q2, path ++ [cell]), hc, rfl⟩, ?_, ?_⟩ h
                · rw [hsplit2]
                  simp
                · rw [hcellself]
                  exact pySetMem_get_cell_cons_false M hq2ne hq2V
                · intro x hx
                  have hxR : x ∈ q :: suf := by
                    rw [hAB]
                    simp [hx]
                  have hxne : x ≠ cell.position := by
                    intro hcon
                    refine hnotB ?_
                    rw [← hcon]
                    exact List.mem_cons_of_mem q2 hx
                  rw [hcellself]
                  exact pySetMem_get_cell_cons_false M hxne (hallV x hxR)
            · have hqne : q ≠ cell.position := by
                intro hcon
                exact hqin (hcon ▸ List.mem_cons_self q suf)
              have hne : itq ≠ ((cost, cell, path) : HeapItem) := by
                intro hcon
                rw [hcon] at hitqpos
                exact hqne hitqpos.symm
              have hitq2 : itq ∈ rest := by
                rcases (heappop_mem hpop itq).mp hitq with h1 | h1
                · exact h1
                · exact absurd h1 hne
              refine ih H2 (cell :: V) hinv2
                ⟨pre, q, suf, hsplit, ⟨itq, holdm itq hitq2, hitqpos⟩, ?_, ?_⟩ h
              · rw [hcellself]
                exact pySetMem_get_cell_cons_false M hqne hqV
              · intro x hx
                have hxne : x ≠ cell.position := by
                  intro hcon
                  exact hqin (hcon ▸ List.mem_cons_of_mem q hx)
                rw [hcellself]
                exact pySetMem_get_cell_cons_false M hxne (hsufV x hx)

/-- A confirmed-path check fails outright when the first cell is
unconfirmed. -/
theorem confirmedPathB_head_false {m : Maze} {p : Pos}
    (h : m.confirmed_distance p = false) (t : List Pos) :
    confirmedPathB m (p :: t) = false := by
  cases t with
  | nil =>
    rw [confirmedPathB, h]
    simp
  | cons b r =>
    rw [confirmedPathB, h]
    simp

/-- The initial singleton heap of `find_fastest_path` is well-formed. -/
theorem ffp_init_inv (M : Maze) (s : Pos) (hs : M.contains s = true) :
    ∀ it ∈ [((0 : Nat), M.get_cell s, ([] : List MazeCell))],
      GoodItem M s it := by
  intro it hit
  rw [List.mem_singleton] at hit
  subst hit
  refine ⟨?_, ?_, ?_, ?_⟩
  · intro c hc
    rw [List.nil_append, List.mem_singleton] at hc
    subst hc
    rfl
  · rfl
  · show routeChainB M [s] = true
    exact hs
  · intro q hq
    simp at hq

/-- A 1×2 maze whose start cell `(0,0)` is never confirmed while the goal
cell `(0,1)` is, with flood-fill distances filled in. -/
def c4Maze : Maze :=
  { Maze.init 1 2 with
    distance_to_goal := fun p =>
      if p = (0, 1) then some 0 else if p = (0, 0) then some 1 else none
    confirmed_distance := fun p => decide (p = ((0 : Int), (1 : Int))) }

/-- C1 counterexample to the None-iff-no-confirmed-route claim:
`find_fastest_path` never checks the start cell's own confirmation, so on
`c4Maze` it returns a two-cell path although every route from `(0,0)`
starts at an unconfirmed cell, i.e. no route of fully confirmed cells
exists.  (A found path and a `None` result cannot both be the advertised
outcome of "no fully confirmed route".) -/
theorem find_fastest_path_none_counterexample :
    c4Maze.find_fastest_path (0, 0) (0, 1) =
      .ok (some [c4Maze.get_cell (0, 0), c4Maze.get_cell (0, 1)]) ∧
    ∀ ps, isConfirmedRouteB c4Maze (0, 0) (0, 1) ps = false := by
  constructor
  · rfl
  · intro ps
    cases ps with
    | nil => rfl
    | cons p t =>
      unfold isConfirmedRouteB
      by_cases hp : p = ((0 : Int), (0 : Int))
      · subst hp
        rw [confirmedPathB_head_false (by decide) t]
        simp
      · have h1 : (((p :: t).head? = some ((0 : Int), (0 : Int))) : Prop) ↔
            p = ((0 : Int), (0 : Int)) := by simp
        rw [decide_eq_false (fun hcon => hp (h1.mp hcon))]
        simp

/-- C4 (amended): `find_fastest_path` always terminates with a result
(never a fatal error) whenever confirmed in-bounds cells carry flood-fill
goal distances, and it returns `None` exactly when no *almost-confirmed*
route connects start to goal — a route all of whose cells after the start
are confirmed; the start cell's own confirmation is never consulted, which
is the correction to the claim's "fully confirmed" wording. -/
theorem find_fastest_path_none_iff (M : Maze) (s g : Pos)
    (hs : M.contains s = true)
    (hconf : ∀ p, M.contains p = true → M.confirmed_distance p = true →
      (M.distance_to_goal p).isSome = true) :
    (∃ r, M.find_fastest_path s g = .ok r) ∧
    (M.find_fastest_path s g = .ok none ↔ ¬AlmostConfRoute M s g) := by
  have hinv0 := ffp_init_inv M s hs
  have hmeas : ffpMeasure M [((0 : Nat), M.get_cell s, ([] : List MazeCell))] [] <
      M.ffp_fuel := by
    unfold ffpMeasure Maze.ffp_fuel
    have h1 : ffpUncovered M [] ≤ M.width.toNat * M.height.toNat := by
      unfold ffpUncovered
      calc (gridPositions M).countP _ ≤ (gridPositions M).length :=
            List.countP_le_length _
        _ = _ := gridPositions_length M
    simp only [List.length_cons, List.length_nil]
    omega
  obtain ⟨r, hr⟩ := ffp_loop_total M s g hconf M.ffp_fuel _ [] hinv0 hmeas
  refine ⟨⟨r, by rw [Maze.find_fastest_path, if_pos hs]; exact hr⟩, ?_⟩
  rw [Maze.find_fastest_path, if_pos hs]
  constructor
  · intro hnone hroute
    obtain ⟨R, hh, hl, hchain, htail⟩ := hroute
    cases R with
    | nil => exact Option.noConfusion hh
    | cons r0 suf =>
      have hr0 : r0 = s := by
        rw [List.head?_cons] at hh
        exact Option.some.inj hh
      subst hr0
      exact ffp_loop_complete M r0 g (r0 :: suf) hl hchain htail M.ffp_fuel _ []
        hinv0
        ⟨[], r0, suf, by simp, ⟨(0, M.get_cell r0, []), by simp, rfl⟩, rfl,
          fun x hx => rfl⟩ hnone
  · intro hnr
    cases hrv : r with
    | none => rw [← hrv]; exact hr
    | some cs =>
      rw [hrv] at hr
      obtain ⟨hGood, hlast⟩ := ffp_loop_sound M s g M.ffp_fuel _ [] cs hinv0 hr
      exact absurd ⟨cs.map MazeCell.position, hGood.2.1, hlast, hGood.2.2.1,
        hGood.2.2.2⟩ hnr

/-- Witness: the amended C4 theorem applied to a fresh 1×1 maze with start
equal to goal. -/
theorem find_fastest_path_none_iff_witness :
    (∃ r, (Maze.init 1 1).find_fastest_path (0, 0) (0, 0) = .ok r) ∧
    ((Maze.init 1 1).find_fastest_path (0, 0) (0, 0) = .ok none ↔
      ¬AlmostConfRoute (Maze.init 1 1) (0, 0) (0, 0)) :=
  find_fastest_path_none_iff (Maze.init 1 1) (0, 0) (0, 0) (by decide)
    (fun p _ hc => absurd hc (by simp [Maze.init]))

/-- C1 (amended): every path `find_fastest_path` returns is a genuine route
— cells read off the maze, positions from start to goal chained by open
hops, everything after the start confirmed — but it need not minimise the
specified cost 2·corners + hops: on `c1Maze` the returned route has formula
cost 9 while a confirmed alternative costs 7, because each expansion
re-adds the whole prefix's corner count and the neighbour's flood-fill
distance instead of the incremental formula cost. -/
theorem find_fastest_path_route_not_minimal :
    (∀ (M : Maze) (s g : Pos) (cs : List MazeCell),
        M.find_fastest_path s g = .ok (some cs) →
        (∀ c ∈ cs, c = M.get_cell c.position) ∧
        (cs.map MazeCell.position).head? = some s ∧
        (cs.map MazeCell.position).getLast? = some g ∧
        routeChainB M (cs.map MazeCell.position) = true ∧
        (∀ q ∈ (cs.map MazeCell.position).tail,
          M.confirmed_distance q = true)) ∧
    (c1Maze.find_fastest_path (0, 0) (1, 4) = .ok (some c1ReturnedPath) ∧
      isConfirmedRouteB c1Maze (0, 0) (1, 4)
        (c1AltPath.map MazeCell.position) = true ∧
      formulaPathCost c1ReturnedPath = 9 ∧
      formulaPathCost c1AltPath = 7) := by
  constructor
  · intro M s g cs h
    rw [Maze.find_fastest_path] at h
    by_cases hs : M.contains s = true
    · rw [if_pos hs] at h
      obtain ⟨hGood, hlast⟩ :=
        ffp_loop_sound M s g M.ffp_fuel _ [] cs (ffp_init_inv M s hs) h
      exact ⟨hGood.1, hGood.2.1, hlast, hGood.2.2.1, hGood.2.2.2⟩
    · rw [if_neg hs] at h
      exact Except.noConfusion h
  · exact ⟨by rfl, by decide, by decide, by decide⟩

/-- Witness: the route soundness half of the amended C1 theorem applied to
the concrete run on `c1Maze`. -/
theorem find_fastest_path_route_not_minimal_witness :
    (c1ReturnedPath.map MazeCell.position).head? = some ((0 : Int), (0 : Int)) ∧
    routeChainB c1Maze (c1ReturnedPath.map MazeCell.position) = true :=
  ⟨(find_fastest_path_route_not_minimal.1 c1Maze (0, 0) (1, 4) c1ReturnedPath
    (by rfl)).2.1,
   (find_fastest_path_route_not_minimal.1 c1Maze (0, 0) (1, 4) c1ReturnedPath
    (by rfl)).2.2.2.1⟩
